import Mathlib

/-!
# Verification of the fontmesh geometry pipeline

A shallow embedding, over the real numbers, of the fontmesh library
(`src/linearize.rs`, `src/extrude.rs`, `src/glyph.rs`, `src/font.rs`,
`src/types.rs`, `src/error.rs`).  Floating point arithmetic is modelled by
exact real arithmetic; machine vectors (`glam::Vec2`, `glam::Vec3`) become
records of reals.  The external collaborators (the `ttf_parser` font face and
the `lyon` tessellator) are modelled abstractly, following the spec's
description of the external interfaces.
-/

namespace Fontmesh

/-- `glam::Vec2`: a 2D vector of (real-modelled) `f32` components. -/
structure Vec2 where
  x : ℝ
  y : ℝ

namespace Vec2

instance : Inhabited Vec2 := ⟨⟨0, 0⟩⟩

/-- Componentwise addition (`impl Add for Vec2`). -/
def add (a b : Vec2) : Vec2 := ⟨a.x + b.x, a.y + b.y⟩

/-- Componentwise subtraction (`impl Sub for Vec2`). -/
def sub (a b : Vec2) : Vec2 := ⟨a.x - b.x, a.y - b.y⟩

/-- Scalar multiplication `v * s` (`impl Mul<f32> for Vec2`). -/
def smul (a : Vec2) (s : ℝ) : Vec2 := ⟨a.x * s, a.y * s⟩

instance : Add Vec2 := ⟨add⟩
instance : Sub Vec2 := ⟨sub⟩

/-- `Vec2::length_squared`. -/
def length_squared (a : Vec2) : ℝ := a.x * a.x + a.y * a.y

/-- `Vec2::length`. -/
noncomputable def length (a : Vec2) : ℝ := Real.sqrt a.length_squared

@[simp] theorem add_def (a b : Vec2) : a + b = ⟨a.x + b.x, a.y + b.y⟩ := rfl

@[simp] theorem sub_def (a b : Vec2) : a - b = ⟨a.x - b.x, a.y - b.y⟩ := rfl

@[simp] theorem smul_def (a : Vec2) (s : ℝ) : a.smul s = ⟨a.x * s, a.y * s⟩ := rfl

theorem length_squared_nonneg (a : Vec2) : 0 ≤ a.length_squared := by
  unfold length_squared; nlinarith [sq_nonneg a.x, sq_nonneg a.y]

end Vec2

/-- `const EPSILON: f32 = 1e-5` from `linearize.rs`. -/
noncomputable def EPSILON : ℝ := 1e-5

/-- `const AREA_THRESHOLD: f32 = 1e-5` from `linearize.rs`. -/
noncomputable def AREA_THRESHOLD : ℝ := 1e-5

theorem EPSILON_eq : EPSILON = 1e-5 := rfl

theorem AREA_THRESHOLD_eq : AREA_THRESHOLD = 1e-5 := rfl

/-- `triangle_area` from `linearize.rs`: Heron's formula with the fast path
for very small edges and the non-negativity guard before the square root. -/
noncomputable def triangle_area (p0 p1 p2 : Vec2) : ℝ :=
  let a_sq := (p0 - p1).length_squared
  let b_sq := (p1 - p2).length_squared
  let c_sq := (p2 - p0).length_squared
  if a_sq < EPSILON * EPSILON ∨ b_sq < EPSILON * EPSILON ∨ c_sq < EPSILON * EPSILON then
    0
  else
    let a := Real.sqrt a_sq
    let b := Real.sqrt b_sq
    let c := Real.sqrt c_sq
    let s := (a + b + c) * 0.5
    let area_sq := s * (s - a) * (s - b) * (s - c)
    if 0 < area_sq then Real.sqrt area_sq else 0

/-- The 2D cross product of the two edge vectors of a triangle; the triangle's
area is `|cross2| / 2`. -/
def cross2 (p0 p1 p2 : Vec2) : ℝ :=
  (p1.x - p0.x) * (p2.y - p0.y) - (p1.y - p0.y) * (p2.x - p0.x)

/-- Heron's formula, written on square roots of the squared edge lengths as in
the code, evaluates to the cross-product form of the triangle area. -/
theorem heron_eq_cross_sq (p0 p1 p2 : Vec2) :
    (Real.sqrt ((p0 - p1).length_squared) + Real.sqrt ((p1 - p2).length_squared) +
          Real.sqrt ((p2 - p0).length_squared)) * 0.5 *
        ((Real.sqrt ((p0 - p1).length_squared) + Real.sqrt ((p1 - p2).length_squared) +
              Real.sqrt ((p2 - p0).length_squared)) * 0.5 -
          Real.sqrt ((p0 - p1).length_squared)) *
        ((Real.sqrt ((p0 - p1).length_squared) + Real.sqrt ((p1 - p2).length_squared) +
              Real.sqrt ((p2 - p0).length_squared)) * 0.5 -
          Real.sqrt ((p1 - p2).length_squared)) *
        ((Real.sqrt ((p0 - p1).length_squared) + Real.sqrt ((p1 - p2).length_squared) +
              Real.sqrt ((p2 - p0).length_squared)) * 0.5 -
          Real.sqrt ((p2 - p0).length_squared)) =
      cross2 p0 p1 p2 ^ 2 / 4 := by
  set a := Real.sqrt ((p0 - p1).length_squared) with ha
  set b := Real.sqrt ((p1 - p2).length_squared) with hb
  set c := Real.sqrt ((p2 - p0).length_squared) with hc
  have ha2 : a ^ 2 = (p0 - p1).length_squared := by
    rw [ha]; exact Real.sq_sqrt (Vec2.length_squared_nonneg _)
  have hb2 : b ^ 2 = (p1 - p2).length_squared := by
    rw [hb]; exact Real.sq_sqrt (Vec2.length_squared_nonneg _)
  have hc2 : c ^ 2 = (p2 - p0).length_squared := by
    rw [hc]; exact Real.sq_sqrt (Vec2.length_squared_nonneg _)
  have key : (a + b + c) * 0.5 * ((a + b + c) * 0.5 - a) * ((a + b + c) * 0.5 - b) *
      ((a + b + c) * 0.5 - c) =
      (4 * (b ^ 2) * (c ^ 2) - (b ^ 2 + c ^ 2 - a ^ 2) ^ 2) / 16 := by ring
  rw [key, ha2, hb2, hc2]
  simp only [Vec2.sub_def, Vec2.length_squared, cross2]
  ring

/-- `triangle_area` in closed form: zero on the small-edge fast path, otherwise
half the absolute cross product of the edge vectors. -/
theorem triangle_area_eq (p0 p1 p2 : Vec2) :
    triangle_area p0 p1 p2 =
      if (p0 - p1).length_squared < EPSILON * EPSILON ∨
          (p1 - p2).length_squared < EPSILON * EPSILON ∨
          (p2 - p0).length_squared < EPSILON * EPSILON then 0
      else |cross2 p0 p1 p2| / 2 := by
  unfold triangle_area
  have hcr := heron_eq_cross_sq p0 p1 p2
  simp only [Vec2.sub_def] at hcr ⊢
  by_cases h : Vec2.length_squared ⟨p0.x - p1.x, p0.y - p1.y⟩ < EPSILON * EPSILON ∨
      Vec2.length_squared ⟨p1.x - p2.x, p1.y - p2.y⟩ < EPSILON * EPSILON ∨
      Vec2.length_squared ⟨p2.x - p0.x, p2.y - p0.y⟩ < EPSILON * EPSILON
  · rw [if_pos h, if_pos h]
  · rw [if_neg h, if_neg h]
    rw [hcr]
    by_cases hc : cross2 p0 p1 p2 = 0
    · simp [hc]
    · have hpos : 0 < cross2 p0 p1 p2 ^ 2 / 4 := by positivity
      rw [if_pos hpos]
      rw [show cross2 p0 p1 p2 ^ 2 / 4 = (|cross2 p0 p1 p2| / 2) ^ 2 by
        rw [div_pow, sq_abs]; norm_num]
      exact Real.sqrt_sq (by positivity)

/-- `qbezier` from `linearize.rs`: evaluate the quadratic Bezier at `t`,
with the factored multiplications of the source. -/
def qbezier (p0 p1 p2 : Vec2) (t : ℝ) : Vec2 :=
  let one_minus_t := 1 - t
  let b := one_minus_t * t
  (p0.smul (one_minus_t * one_minus_t) + p1.smul (2 * b)) + p2.smul (t * t)

/-- Rust's `f32::round(...) as usize` for a non-negative argument:
round half away from zero, i.e. `⌊x + 1/2⌋` clamped to `ℕ`. -/
noncomputable def rustRoundNat (x : ℝ) : ℕ := ⌊x + 1 / 2⌋₊

/-- The batched interior-point loop of `linearize_qbezier` (four points per
iteration, advancing `t` by `step * 4`); returns the emitted points together
with the final value of the mutable accumulator `t`. -/
def qbBatches (p0 p1 p2 : Vec2) (step : ℝ) : ℝ → ℕ → List Vec2 × ℝ
  | t, 0 => ([], t)
  | t, b + 1 =>
    let rest := qbBatches p0 p1 p2 step (t + step * 4) b
    ([qbezier p0 p1 p2 t, qbezier p0 p1 p2 (t + step),
      qbezier p0 p1 p2 (t + step * 2), qbezier p0 p1 p2 (t + step * 3)] ++ rest.1, rest.2)

/-- The remainder loop of `linearize_qbezier` (`num_points % 4` single
points, advancing `t` by `step`). -/
def qbRem (p0 p1 p2 : Vec2) (step : ℝ) : ℝ → ℕ → List Vec2
  | _, 0 => []
  | t, r + 1 => qbezier p0 p1 p2 t :: qbRem p0 p1 p2 step (t + step) r

/-- `linearize_qbezier` from `linearize.rs`, returning the list of interior
points it pushes onto the result contour. -/
noncomputable def linearize_qbezier (p0 p1 p2 : Vec2) (subdivisions : ℕ) : List Vec2 :=
  let area := triangle_area p0 p1 p2
  if area < AREA_THRESHOLD then []
  else
    let t0 := (p1 - p0).smul 2
    let t1 := (p2 - p1).smul 2
    let t0_len := t0.length
    let t1_len := t1.length
    if t0_len < EPSILON ∨ t1_len < EPSILON then []
    else
      let cross := t0.x * t1.y - t0.y * t1.x
      let inv_len_product := 1 / (t0_len * t1_len)
      let angle := Real.arcsin (min (|cross| * inv_len_product) 1)
      let num_points := rustRoundNat (angle / (Real.pi * 2) * subdivisions)
      if num_points = 0 then []
      else
        let step := 1 / ((num_points : ℝ) + 1)
        let batches := qbBatches p0 p1 p2 step step (num_points / 4)
        batches.1 ++ qbRem p0 p1 p2 step batches.2 (num_points % 4)

/-- The interior point count computed by `linearize_qbezier` from the angle
between the two tangents. -/
noncomputable def qbNumPoints (p0 p1 p2 : Vec2) (subdivisions : ℕ) : ℕ :=
  rustRoundNat (Real.arcsin
      (min (|((p1 - p0).smul 2).x * ((p2 - p1).smul 2).y -
          ((p1 - p0).smul 2).y * ((p2 - p1).smul 2).x| *
        (1 / (((p1 - p0).smul 2).length * ((p2 - p1).smul 2).length))) 1) /
    (Real.pi * 2) * subdivisions)

theorem qbBatches_fst (p0 p1 p2 : Vec2) (step : ℝ) :
    ∀ (b : ℕ) (t : ℝ), (qbBatches p0 p1 p2 step t b).1 =
      (List.range (4 * b)).map (fun k : ℕ => qbezier p0 p1 p2 (t + step * (k : ℝ))) := by
  intro b
  induction b with
  | zero => intro t; simp [qbBatches]
  | succ n ih =>
    intro t
    have h4 : 4 * (n + 1) = 4 + 4 * n := by ring
    rw [qbBatches, h4, List.range_add, List.map_append]
    simp only [ih]
    congr 1
    · show _ = List.map _ [0, 1, 2, 3]
      simp only [List.map_cons, List.map_nil, List.cons.injEq, and_true]
      refine ⟨by norm_num, by norm_num, by norm_num, by norm_num⟩
    · rw [List.map_map]
      apply List.map_congr_left
      intro k _
      simp only [Function.comp_apply]
      congr 1
      push_cast
      ring

theorem qbBatches_snd (p0 p1 p2 : Vec2) (step : ℝ) :
    ∀ (b : ℕ) (t : ℝ), (qbBatches p0 p1 p2 step t b).2 = t + step * (4 * (b : ℝ)) := by
  intro b
  induction b with
  | zero => intro t; simp [qbBatches]
  | succ n ih =>
    intro t
    rw [qbBatches]
    simp only [ih]
    push_cast
    ring

theorem qbRem_eq (p0 p1 p2 : Vec2) (step : ℝ) :
    ∀ (r : ℕ) (t : ℝ), qbRem p0 p1 p2 step t r =
      (List.range r).map (fun k : ℕ => qbezier p0 p1 p2 (t + step * (k : ℝ))) := by
  intro r
  induction r with
  | zero => intro t; simp [qbRem]
  | succ n ih =>
    intro t
    rw [qbRem, ih, List.range_succ_eq_map]
    simp only [List.map_cons, List.map_map]
    congr 1
    · norm_num
    · apply List.map_congr_left
      intro k _
      simp only [Function.comp_apply]
      congr 1
      push_cast
      ring

theorem map_range_split {α : Type} (f : ℕ → α) (a b n : ℕ) (h : a + b = n) :
    (List.range n).map f =
      (List.range a).map f ++ (List.range b).map (fun k => f (a + k)) := by
  subst h
  rw [List.range_add, List.map_append, List.map_map]
  rfl

/-- The two loops of `linearize_qbezier` together emit exactly the points
`qbezier (k / (n+1))` for `k = 1, …, n`, in increasing order of `k`. -/
theorem qbLoops_eq (p0 p1 p2 : Vec2) (n : ℕ) :
    ((qbBatches p0 p1 p2 (1 / ((n : ℝ) + 1)) (1 / ((n : ℝ) + 1)) (n / 4)).1 ++
        qbRem p0 p1 p2 (1 / ((n : ℝ) + 1))
          (qbBatches p0 p1 p2 (1 / ((n : ℝ) + 1)) (1 / ((n : ℝ) + 1)) (n / 4)).2 (n % 4)) =
      (List.range n).map (fun k : ℕ => qbezier p0 p1 p2 (((k : ℝ) + 1) / ((n : ℝ) + 1))) := by
  rw [qbBatches_fst, qbBatches_snd, qbRem_eq,
    map_range_split (fun k : ℕ => qbezier p0 p1 p2 (((k : ℝ) + 1) / ((n : ℝ) + 1)))
      (4 * (n / 4)) (n % 4) n (Nat.div_add_mod n 4)]
  have hn1 : ((n : ℝ) + 1) ≠ 0 := by positivity
  congr 1
  · apply List.map_congr_left
    intro k _
    congr 1
    field_simp
    ring
  · apply List.map_congr_left
    intro k _
    congr 1
    push_cast
    field_simp
    ring

/-- Closed form of `linearize_qbezier`: nothing on the degenerate paths,
otherwise the Bezier blend sampled at `t = (k+1)/(num+1)` for
`k = 0, …, num-1` where `num` is the rounded angle-proportional count. -/
theorem linearize_qbezier_eq (p0 p1 p2 : Vec2) (s : ℕ) :
    linearize_qbezier p0 p1 p2 s =
      if triangle_area p0 p1 p2 < AREA_THRESHOLD then []
      else if ((p1 - p0).smul 2).length < EPSILON ∨ ((p2 - p1).smul 2).length < EPSILON then []
      else
        (List.range (qbNumPoints p0 p1 p2 s)).map
          (fun k : ℕ => qbezier p0 p1 p2 (((k : ℝ) + 1) / ((qbNumPoints p0 p1 p2 s : ℝ) + 1))) := by
  unfold linearize_qbezier qbNumPoints
  by_cases h1 : triangle_area p0 p1 p2 < AREA_THRESHOLD
  · rw [if_pos h1, if_pos h1]
  · rw [if_neg h1, if_neg h1]
    by_cases h2 : ((p1 - p0).smul 2).length < EPSILON ∨ ((p2 - p1).smul 2).length < EPSILON
    · rw [if_pos h2, if_pos h2]
    · rw [if_neg h2, if_neg h2]
      by_cases h3 : rustRoundNat (Real.arcsin
          (min (|((p1 - p0).smul 2).x * ((p2 - p1).smul 2).y -
              ((p1 - p0).smul 2).y * ((p2 - p1).smul 2).x| *
            (1 / (((p1 - p0).smul 2).length * ((p2 - p1).smul 2).length))) 1) /
          (Real.pi * 2) * s) = 0
      · rw [if_pos h3, h3]
        simp
      · rw [if_neg h3]
        exact qbLoops_eq p0 p1 p2 _

/-- `ContourPoint` from `types.rs`. -/
structure ContourPoint where
  point : Vec2
  on_curve : Bool

instance : Inhabited ContourPoint := ⟨⟨default, true⟩⟩

/-- `ContourPoint::on_curve` constructor. -/
def ContourPoint.mkOn (p : Vec2) : ContourPoint := ⟨p, true⟩

/-- `ContourPoint::off_curve` constructor. -/
def ContourPoint.mkOff (p : Vec2) : ContourPoint := ⟨p, false⟩

/-- `Contour` from `types.rs`. -/
structure Contour where
  points : List ContourPoint
  closed : Bool

/-- `Outline2D` from `types.rs`. -/
structure Outline2D where
  contours : List Contour

/-- `LinearizeState` from `linearize.rs`. -/
inductive LinearizeState where
  | initial : LinearizeState
  | onCurve (last_point : Vec2) : LinearizeState
  | offCurve (last_point control_point : Vec2) : LinearizeState

/-- One step of the `linearize_contour` state machine: the points pushed onto
the result for this input point, and the next state. -/
noncomputable def linStep (subdivisions : ℕ) (state : LinearizeState) (cp : ContourPoint) :
    List ContourPoint × LinearizeState :=
  match state with
  | .initial => ([.mkOn cp.point], .onCurve cp.point)
  | .onCurve last_point =>
    if cp.on_curve then ([.mkOn cp.point], .onCurve cp.point)
    else ([], .offCurve last_point cp.point)
  | .offCurve last_point control_point =>
    if cp.on_curve then
      ((linearize_qbezier last_point control_point cp.point subdivisions).map .mkOn ++
          [.mkOn cp.point],
        .onCurve cp.point)
    else
      let mid := (control_point + cp.point).smul 0.5
      ((linearize_qbezier last_point control_point mid subdivisions).map .mkOn ++ [.mkOn mid],
        .offCurve mid cp.point)

/-- The fold of `linStep` over the contour's point list, accumulating emitted
points by concatenation (the `for i in 0..n` loop of `linearize_contour`). -/
noncomputable def linFold (subdivisions : ℕ) : List ContourPoint → LinearizeState →
    List ContourPoint × LinearizeState
  | [], st => ([], st)
  | cp :: rest, st =>
    let step := linStep subdivisions st cp
    let rec' := linFold subdivisions rest step.2
    (step.1 ++ rec'.1, rec'.2)

/-- The closing emission of `linearize_contour`: if the loop ended in the
`OffCurve` state and the contour is closed, linearize one final quadratic
back to the first point. -/
noncomputable def linClose (subdivisions : ℕ) (closed : Bool) (first_point : Vec2)
    (state : LinearizeState) : List ContourPoint :=
  match state with
  | .offCurve last_point control_point =>
    if closed then (linearize_qbezier last_point control_point first_point subdivisions).map .mkOn
    else []
  | _ => []

/-- One step of the keep pass of `remove_collinear_points`: the remaining
middle points are processed left to right against the last kept point, with
each point's successor being the next middle point or, at the end, the
contour's final point.  This models the in-place two-pointer loop: the reads
`points[read_idx]` and `points[read_idx + 1]` are of positions not yet
written, hence of the original points, and `points[write_idx - 1]` is the
last kept point. -/
noncomputable def keepPass (lastKept : ContourPoint) :
    List ContourPoint → ContourPoint → List ContourPoint
  | [], lastPoint => [lastPoint]
  | p :: rest, lastPoint =>
    let succ := match rest with
      | [] => lastPoint
      | q :: _ => q
    if EPSILON < triangle_area lastKept.point p.point succ.point then
      p :: keepPass p rest lastPoint
    else keepPass lastKept rest lastPoint

/-- The duplicate-endpoint loop of `remove_collinear_points`, acting on the
reversed point list: pop the head (the contour's last point) while more than
one point remains and the head is within `EPSILON` of the first point in both
coordinates. -/
noncomputable def popRev (first : Vec2) : List ContourPoint → List ContourPoint
  | [] => []
  | [p] => [p]
  | p :: rest =>
    if |p.point.x - first.x| > EPSILON ∨ |p.point.y - first.y| > EPSILON then p :: rest
    else popRev first rest

/-- `remove_collinear_points` from `linearize.rs`, as a function on the point
list: the keep pass, then the duplicate-endpoint loop, then the defensive
clearing of contours left with fewer than 3 points. -/
noncomputable def remove_collinear_points (pts : List ContourPoint) : List ContourPoint :=
  if pts.length < 3 then pts
  else
    match pts with
    | [] => pts
    | p0 :: rest =>
      let kept := p0 :: keepPass p0 rest.dropLast (rest.getLastD p0)
      let deduped := (popRev p0.point kept.reverse).reverse
      if deduped.length < 3 then [] else deduped

/-- `linearize_contour` from `linearize.rs`. -/
noncomputable def linearize_contour (c : Contour) (subdivisions : ℕ) : Contour :=
  if c.points.length < 2 then ⟨c.points, c.closed⟩
  else
    let first_point := c.points.headI.point
    let folded := linFold subdivisions c.points .initial
    let withClose := folded.1 ++ linClose subdivisions c.closed first_point folded.2
    ⟨remove_collinear_points withClose, c.closed⟩

/-- `linearize_outline` from `linearize.rs` (always succeeds; the `Result`
wrapper is omitted). -/
noncomputable def linearize_outline (o : Outline2D) (subdivisions : ℕ) : Outline2D :=
  ⟨(o.contours.map (fun c => linearize_contour c subdivisions)).filter
      (fun c => !c.points.isEmpty)⟩

/-- Total number of outline vertices, as compared by the monotonicity
property of the spec. -/
def outlineVertexCount (o : Outline2D) : ℕ :=
  (o.contours.map (fun c => c.points.length)).sum

theorem qbNumPoints_claim_form (p0 p1 p2 : Vec2) (s : ℕ) :
    qbNumPoints p0 p1 p2 s =
      rustRoundNat (Real.arcsin
          (min 1 (|((p1 - p0).smul 2).x * ((p2 - p1).smul 2).y -
              ((p1 - p0).smul 2).y * ((p2 - p1).smul 2).x| /
            (((p1 - p0).smul 2).length * ((p2 - p1).smul 2).length))) /
        (2 * Real.pi) * s) := by
  unfold qbNumPoints
  rw [min_comm, mul_one_div, mul_comm Real.pi 2]

/-- **C1.** For every quadratic Bezier `(p0, p1, p2)` and subdivision count
`s`: if the triangle area is below the threshold or either tangent is shorter
than `EPSILON`, no interior points are emitted; otherwise exactly
`round(asin(min(1, |cross(t0,t1)| / (|t0|·|t1|))) / (2π) · s)` interior
points are emitted, and they are the quadratic Bezier blend evaluated at
`t = k/(n+1)` for `k = 1, …, n` in increasing order. -/
theorem linearize_qbezier_interior_points (p0 p1 p2 : Vec2) (s : ℕ) :
    linearize_qbezier p0 p1 p2 s =
      (if triangle_area p0 p1 p2 < AREA_THRESHOLD ∨
          ((p1 - p0).smul 2).length < EPSILON ∨ ((p2 - p1).smul 2).length < EPSILON then []
       else
        (List.range (rustRoundNat (Real.arcsin
            (min 1 (|((p1 - p0).smul 2).x * ((p2 - p1).smul 2).y -
                ((p1 - p0).smul 2).y * ((p2 - p1).smul 2).x| /
              (((p1 - p0).smul 2).length * ((p2 - p1).smul 2).length))) /
          (2 * Real.pi) * s))).map
          (fun k : ℕ => qbezier p0 p1 p2 (((k : ℝ) + 1) /
            ((rustRoundNat (Real.arcsin
                (min 1 (|((p1 - p0).smul 2).x * ((p2 - p1).smul 2).y -
                    ((p1 - p0).smul 2).y * ((p2 - p1).smul 2).x| /
                  (((p1 - p0).smul 2).length * ((p2 - p1).smul 2).length))) /
              (2 * Real.pi) * s) : ℝ) + 1)))) ∧
      (linearize_qbezier p0 p1 p2 s).length =
        (if triangle_area p0 p1 p2 < AREA_THRESHOLD ∨
            ((p1 - p0).smul 2).length < EPSILON ∨ ((p2 - p1).smul 2).length < EPSILON then 0
         else rustRoundNat (Real.arcsin
            (min 1 (|((p1 - p0).smul 2).x * ((p2 - p1).smul 2).y -
                ((p1 - p0).smul 2).y * ((p2 - p1).smul 2).x| /
              (((p1 - p0).smul 2).length * ((p2 - p1).smul 2).length))) /
          (2 * Real.pi) * s)) := by
  have hmain : linearize_qbezier p0 p1 p2 s =
      if triangle_area p0 p1 p2 < AREA_THRESHOLD ∨
          ((p1 - p0).smul 2).length < EPSILON ∨ ((p2 - p1).smul 2).length < EPSILON then []
      else
        (List.range (qbNumPoints p0 p1 p2 s)).map
          (fun k : ℕ => qbezier p0 p1 p2 (((k : ℝ) + 1) /
            ((qbNumPoints p0 p1 p2 s : ℝ) + 1))) := by
    rw [linearize_qbezier_eq]
    by_cases h1 : triangle_area p0 p1 p2 < AREA_THRESHOLD
    · rw [if_pos h1, if_pos (Or.inl h1)]
    · by_cases h2 : ((p1 - p0).smul 2).length < EPSILON ∨ ((p2 - p1).smul 2).length < EPSILON
      · rw [if_neg h1, if_pos h2, if_pos (Or.inr h2)]
      · rw [if_neg h1, if_neg h2, if_neg (by tauto)]
  rw [← qbNumPoints_claim_form]
  constructor
  · exact hmain
  · rw [hmain]
    by_cases h : triangle_area p0 p1 p2 < AREA_THRESHOLD ∨
        ((p1 - p0).smul 2).length < EPSILON ∨ ((p2 - p1).smul 2).length < EPSILON
    · rw [if_pos h, if_pos h]
      rfl
    · rw [if_neg h, if_neg h, List.length_map, List.length_range]

theorem linFold_append (s : ℕ) (l1 l2 : List ContourPoint) (st : LinearizeState) :
    linFold s (l1 ++ l2) st =
      ((linFold s l1 st).1 ++ (linFold s l2 (linFold s l1 st).2).1,
        (linFold s l2 (linFold s l1 st).2).2) := by
  induction l1 generalizing st with
  | nil => simp [linFold]
  | cons p rest ih =>
    simp only [List.cons_append, linFold, List.append_eq, ih, List.append_assoc]

/-- **C2.** In the `OffCurve` state, reading another off-curve point `p`
emits the quadratic from `last` through `control` to the implicit midpoint
`(control + p)/2`, pushes the midpoint on-curve, and stays in `OffCurve` with
`p` pending; and a closed contour whose point sequence ends in `OffCurve`
gets one final quadratic segment from `last` through `control` back to the
contour's first point. -/
theorem linearize_offcurve_transitions (s : ℕ) :
    (∀ (pre : List ContourPoint) (p : ContourPoint) (acc : List ContourPoint)
        (last control : Vec2),
      linFold s pre .initial = (acc, .offCurve last control) → p.on_curve = false →
      linFold s (pre ++ [p]) .initial =
        (acc ++ ((linearize_qbezier last control ((control + p.point).smul 0.5) s).map .mkOn ++
            [.mkOn ((control + p.point).smul 0.5)]),
          .offCurve ((control + p.point).smul 0.5) p.point)) ∧
    (∀ (c : Contour) (acc : List ContourPoint) (last control : Vec2),
      2 ≤ c.points.length → c.closed = true →
      linFold s c.points .initial = (acc, .offCurve last control) →
      linearize_contour c s =
        ⟨remove_collinear_points
            (acc ++ (linearize_qbezier last control c.points.headI.point s).map .mkOn),
          true⟩) := by
  constructor
  · intro pre p acc last control hfold hp
    rw [linFold_append, hfold]
    simp only [linFold, linStep, hp]
    simp [List.append_assoc]
  · intro c acc last control hlen hclosed hfold
    unfold linearize_contour
    rw [if_neg (by omega)]
    simp only [hfold, hclosed, linClose, if_pos]

/-- Witness for the `OffCurve` transition theorem at a concrete contour. -/
theorem linearize_offcurve_transitions_witness :
    (linFold 20 [ContourPoint.mkOn ⟨0, 0⟩, ContourPoint.mkOff ⟨1, 0⟩] .initial =
        ([ContourPoint.mkOn ⟨0, 0⟩], .offCurve ⟨0, 0⟩ ⟨1, 0⟩) ∧
      (ContourPoint.mkOff ⟨1, 1⟩).on_curve = false ∧
      2 ≤ (Contour.mk [ContourPoint.mkOn ⟨0, 0⟩, ContourPoint.mkOff ⟨1, 0⟩] true).points.length ∧
      (Contour.mk [ContourPoint.mkOn ⟨0, 0⟩, ContourPoint.mkOff ⟨1, 0⟩] true).closed = true) ∧
    linFold 20 ([ContourPoint.mkOn ⟨0, 0⟩, ContourPoint.mkOff ⟨1, 0⟩] ++
        [ContourPoint.mkOff ⟨1, 1⟩]) .initial =
      ([ContourPoint.mkOn ⟨0, 0⟩] ++
          ((linearize_qbezier ⟨0, 0⟩ ⟨1, 0⟩
              ((Vec2.mk 1 0 + (ContourPoint.mkOff ⟨1, 1⟩).point).smul 0.5) 20).map .mkOn ++
            [.mkOn ((Vec2.mk 1 0 + (ContourPoint.mkOff ⟨1, 1⟩).point).smul 0.5)]),
        .offCurve ((Vec2.mk 1 0 + (ContourPoint.mkOff ⟨1, 1⟩).point).smul 0.5)
          (ContourPoint.mkOff ⟨1, 1⟩).point) ∧
    linearize_contour (Contour.mk [ContourPoint.mkOn ⟨0, 0⟩, ContourPoint.mkOff ⟨1, 0⟩] true) 20 =
      ⟨remove_collinear_points
          ([ContourPoint.mkOn ⟨0, 0⟩] ++
            (linearize_qbezier ⟨0, 0⟩ ⟨1, 0⟩
              (Contour.mk [ContourPoint.mkOn ⟨0, 0⟩, ContourPoint.mkOff ⟨1, 0⟩]
                true).points.headI.point 20).map .mkOn),
        true⟩ :=
  ⟨⟨rfl, rfl, by decide, rfl⟩,
    (linearize_offcurve_transitions 20).1 [ContourPoint.mkOn ⟨0, 0⟩, ContourPoint.mkOff ⟨1, 0⟩]
      (ContourPoint.mkOff ⟨1, 1⟩) [ContourPoint.mkOn ⟨0, 0⟩] ⟨0, 0⟩ ⟨1, 0⟩ rfl rfl,
    (linearize_offcurve_transitions 20).2
      (Contour.mk [ContourPoint.mkOn ⟨0, 0⟩, ContourPoint.mkOff ⟨1, 0⟩] true)
      [ContourPoint.mkOn ⟨0, 0⟩] ⟨0, 0⟩ ⟨1, 0⟩ (by decide) rfl rfl⟩

/-- The keep pass as the spec describes it: a single left-to-right pass,
realized as a fold over the interior points paired with their successors,
testing each against the last kept point (the end of the accumulator). -/
noncomputable def specKeep (pts : List ContourPoint) : List ContourPoint :=
  match pts with
  | [] => []
  | p0 :: rest =>
    let mid := rest.dropLast
    let lst := rest.getLastD p0
    ((mid.zip (mid.tail ++ [lst])).foldl
        (fun acc pr =>
          if EPSILON < triangle_area (acc.getLastD default).point pr.1.point pr.2.point then
            acc ++ [pr.1]
          else acc)
        [p0]) ++ [lst]

/-- Drop points from the end while more than one point remains and the last
point is within `EPSILON` of `first` in both coordinates. -/
noncomputable def specDropWhileClose (first : Vec2) (l : List ContourPoint) :
    List ContourPoint :=
  if h : 1 < l.length ∧ |(l.getLastD default).point.x - first.x| ≤ EPSILON ∧
      |(l.getLastD default).point.y - first.y| ≤ EPSILON then
    specDropWhileClose first l.dropLast
  else l
termination_by l.length
decreasing_by
  rw [List.length_dropLast]
  omega

/-- The spec's description of `remove_collinear_points`, amended: keep pass,
then repeated dropping of end points that coincide with the first point,
then discarding results below 3 points. -/
noncomputable def spec_simplify (pts : List ContourPoint) : List ContourPoint :=
  if pts.length < 3 then pts
  else
    let d := specDropWhileClose pts.headI.point (specKeep pts)
    if d.length < 3 then [] else d

/-- A single conditional drop of the duplicate end point, as the claim
words it. -/
noncomputable def specDropOnce (first : Vec2) (l : List ContourPoint) : List ContourPoint :=
  if 1 < l.length ∧ |(l.getLastD default).point.x - first.x| ≤ EPSILON ∧
      |(l.getLastD default).point.y - first.y| ≤ EPSILON then l.dropLast else l

/-- The spec's description of `remove_collinear_points` exactly as claimed:
keep pass, then a SINGLE conditional drop of the duplicate last point, then
discarding results below 3 points. -/
noncomputable def spec_simplify_single (pts : List ContourPoint) : List ContourPoint :=
  if pts.length < 3 then pts
  else if (specDropOnce pts.headI.point (specKeep pts)).length < 3 then []
  else specDropOnce pts.headI.point (specKeep pts)

theorem zip_succ_cons (p : ContourPoint) (rest : List ContourPoint) (lst : ContourPoint) :
    (p :: rest).zip ((p :: rest).tail ++ [lst]) =
      (p, match rest with | [] => lst | q :: _ => q) :: rest.zip (rest.tail ++ [lst]) := by
  cases rest <;> rfl

theorem keepPass_zip_foldl (mid : List ContourPoint) (lst : ContourPoint) :
    ∀ (acc : List ContourPoint) (lk : ContourPoint), acc.getLastD default = lk →
      ((mid.zip (mid.tail ++ [lst])).foldl
          (fun acc pr =>
            if EPSILON < triangle_area (acc.getLastD default).point pr.1.point pr.2.point then
              acc ++ [pr.1]
            else acc)
          acc) ++ [lst] =
        acc ++ keepPass lk mid lst := by
  induction mid with
  | nil => intro acc lk _; simp [keepPass]
  | cons p rest ih =>
    intro acc lk hlast
    rw [zip_succ_cons, List.foldl_cons]
    simp only [keepPass]
    simp only [hlast]
    by_cases hkeep : EPSILON < triangle_area lk.point p.point
        (match rest with | [] => lst | q :: _ => q).point
    · rw [if_pos hkeep, if_pos (by exact hkeep)]
      rw [ih (acc ++ [p]) p (by simp), List.append_assoc]
      rfl
    · rw [if_neg hkeep, if_neg (by exact hkeep)]
      exact ih acc lk hlast

theorem popRev_reverse_eq (first : Vec2) (l : List ContourPoint) :
    (popRev first l.reverse).reverse = specDropWhileClose first l := by
  induction l using List.reverseRecOn with
  | nil =>
    rw [specDropWhileClose]
    simp [popRev]
  | append_singleton init a ih =>
    have hrev : (init ++ [a]).reverse = a :: init.reverse := by
      rw [List.reverse_append]
      rfl
    have hg : (init ++ [a]).getLastD default = a := by
      simp
    by_cases hinit : init = []
    · subst hinit
      rw [specDropWhileClose]
      have : ¬(1 < (([] : List ContourPoint) ++ [a]).length ∧
          |((([] : List ContourPoint) ++ [a]).getLastD default).point.x - first.x| ≤ EPSILON ∧
          |((([] : List ContourPoint) ++ [a]).getLastD default).point.y - first.y| ≤ EPSILON) := by
        simp
      rw [dif_neg this]
      simp [popRev]
    · obtain ⟨d0, drest, hd⟩ := List.exists_cons_of_ne_nil
        (show init.reverse ≠ [] by simpa using hinit)
      rw [specDropWhileClose, hrev, hd, popRev]
      have hlinit : init.length ≠ 0 := by simpa using hinit
      have hlen : 1 < (init ++ [a]).length := by
        simp only [List.length_append, List.length_cons, List.length_nil]
        omega
      by_cases hfar : |a.point.x - first.x| > EPSILON ∨ |a.point.y - first.y| > EPSILON
      · rw [if_pos hfar, dif_neg]
        · rw [← hd, ← hrev, List.reverse_reverse]
        · rw [hg]
          rintro ⟨-, hx, hy⟩
          rcases hfar with h | h
          · exact absurd hx (not_le.mpr h)
          · exact absurd hy (not_le.mpr h)
      · rw [if_neg hfar, dif_pos]
        · rw [List.dropLast_concat, ← hd, ih]
        · push_neg at hfar
          rw [hg]
          exact ⟨hlen, hfar.1, hfar.2⟩
      simp

/-- `remove_collinear_points` coincides with the amended spec description. -/
theorem remove_collinear_points_eq_spec (pts : List ContourPoint) :
    remove_collinear_points pts = spec_simplify pts := by
  unfold remove_collinear_points spec_simplify
  by_cases hlen : pts.length < 3
  · rw [if_pos hlen, if_pos hlen]
  · rw [if_neg hlen, if_neg hlen]
    match pts, hlen with
    | p0 :: rest, hlen =>
      have hkeep : specKeep (p0 :: rest) =
          p0 :: keepPass p0 rest.dropLast (rest.getLastD p0) := by
        unfold specKeep
        exact keepPass_zip_foldl rest.dropLast (rest.getLastD p0) [p0] p0 rfl
      simp only [List.headI]
      rw [hkeep, ← popRev_reverse_eq p0.point
        (p0 :: keepPass p0 rest.dropLast (rest.getLastD p0))]

/-- **C3 (amended).** Post-simplification keeps the first point
unconditionally, keeps an interior point iff the triangle with the last kept
point and the point's own successor has area above epsilon, always keeps the
last point; afterwards points are dropped from the end WHILE the last point
remains within epsilon of the first (and more than one point remains); and a
contour reduced below 3 points does not appear in the linearized outline. -/
theorem remove_collinear_matches_spec :
    (∀ pts : List ContourPoint, remove_collinear_points pts = spec_simplify pts) ∧
    (∀ (o : Outline2D) (s : ℕ) (c : Contour),
      c ∈ (linearize_outline o s).contours → c.points ≠ []) := by
  constructor
  · exact remove_collinear_points_eq_spec
  · intro o s c hc
    unfold linearize_outline at hc
    simp only [List.mem_filter] at hc
    obtain ⟨-, hne⟩ := hc
    simpa using hne

/-- Witness for the amended simplification theorem. -/
theorem remove_collinear_matches_spec_witness :
    ((Contour.mk [ContourPoint.mkOff ⟨0, 0⟩] true) ∈
        (linearize_outline ⟨[⟨[ContourPoint.mkOff ⟨0, 0⟩], true⟩]⟩ 20).contours) ∧
    remove_collinear_points [] = spec_simplify [] ∧
    (Contour.mk [ContourPoint.mkOff ⟨0, 0⟩] true).points ≠ [] := by
  have hmem : (Contour.mk [ContourPoint.mkOff ⟨0, 0⟩] true) ∈
      (linearize_outline ⟨[⟨[ContourPoint.mkOff ⟨0, 0⟩], true⟩]⟩ 20).contours := by
    have hc : (linearize_outline ⟨[⟨[ContourPoint.mkOff ⟨0, 0⟩], true⟩]⟩ 20).contours =
        [Contour.mk [ContourPoint.mkOff ⟨0, 0⟩] true] := rfl
    rw [hc]
    exact List.mem_singleton_self _
  exact ⟨hmem, remove_collinear_matches_spec.1 [],
    remove_collinear_matches_spec.2 _ 20 _ hmem⟩

/-- **C3 counterexample.** On the 5-point contour below, the code's dedup
loop pops TWO end points (both within epsilon of the first point), so the
claimed single-drop behavior mispredicts the result. -/
theorem remove_collinear_single_drop_cex :
    remove_collinear_points
        [ContourPoint.mkOn ⟨0, 0⟩, ContourPoint.mkOn ⟨3, 0⟩, ContourPoint.mkOn ⟨0, 3⟩,
          ContourPoint.mkOn ⟨-(1 / 100000), 0⟩, ContourPoint.mkOn ⟨1 / 100000, 0⟩] ≠
      spec_simplify_single
        [ContourPoint.mkOn ⟨0, 0⟩, ContourPoint.mkOn ⟨3, 0⟩, ContourPoint.mkOn ⟨0, 3⟩,
          ContourPoint.mkOn ⟨-(1 / 100000), 0⟩, ContourPoint.mkOn ⟨1 / 100000, 0⟩] := by
  have h1 : EPSILON < triangle_area ⟨0, 0⟩ ⟨3, 0⟩ ⟨0, 3⟩ := by
    rw [triangle_area_eq, if_neg]
    · have : cross2 ⟨0, 0⟩ ⟨3, 0⟩ ⟨0, 3⟩ = 9 := by norm_num [cross2]
      rw [this, EPSILON_eq]
      rw [abs_of_nonneg (by norm_num : (0:ℝ) ≤ 9)]
      norm_num
    · push_neg
      refine ⟨?_, ?_, ?_⟩ <;>
        (simp only [Vec2.sub_def, Vec2.length_squared, EPSILON_eq]; norm_num)
  have h2 : EPSILON < triangle_area ⟨3, 0⟩ ⟨0, 3⟩ ⟨-(1 / 100000), 0⟩ := by
    rw [triangle_area_eq, if_neg]
    · have : cross2 ⟨3, 0⟩ ⟨0, 3⟩ ⟨-(1 / 100000), 0⟩ = 9 + 3 / 100000 := by
        simp only [cross2]
        ring
      rw [this, EPSILON_eq]
      rw [abs_of_nonneg (by norm_num : (0:ℝ) ≤ 9 + 3 / 100000)]
      norm_num
    · push_neg
      refine ⟨?_, ?_, ?_⟩ <;>
        (simp only [Vec2.sub_def, Vec2.length_squared, EPSILON_eq]; norm_num)
  have h3 : EPSILON < triangle_area ⟨0, 3⟩ ⟨-(1 / 100000), 0⟩ ⟨1 / 100000, 0⟩ := by
    rw [triangle_area_eq, if_neg]
    · have : cross2 ⟨0, 3⟩ ⟨-(1 / 100000), 0⟩ ⟨1 / 100000, 0⟩ = 6 / 100000 := by
        simp only [cross2]
        ring
      rw [this, EPSILON_eq]
      rw [abs_of_nonneg (by norm_num : (0:ℝ) ≤ 6 / 100000)]
      norm_num
    · push_neg
      refine ⟨?_, ?_, ?_⟩ <;>
        (simp only [Vec2.sub_def, Vec2.length_squared, EPSILON_eq]; norm_num)
  have hkp : keepPass (ContourPoint.mkOn ⟨0, 0⟩)
      [ContourPoint.mkOn ⟨3, 0⟩, ContourPoint.mkOn ⟨0, 3⟩,
        ContourPoint.mkOn ⟨-(1 / 100000), 0⟩] (ContourPoint.mkOn ⟨1 / 100000, 0⟩) =
      [ContourPoint.mkOn ⟨3, 0⟩, ContourPoint.mkOn ⟨0, 3⟩,
        ContourPoint.mkOn ⟨-(1 / 100000), 0⟩, ContourPoint.mkOn ⟨1 / 100000, 0⟩] := by
    simp only [keepPass, ContourPoint.mkOn]
    rw [if_pos h1, if_pos h2, if_pos h3]
  have hY : ¬(|(ContourPoint.mkOn (⟨1 / 100000, 0⟩ : Vec2)).point.x -
        (ContourPoint.mkOn (⟨0, 0⟩ : Vec2)).point.x| > EPSILON ∨
      |(ContourPoint.mkOn (⟨1 / 100000, 0⟩ : Vec2)).point.y -
        (ContourPoint.mkOn (⟨0, 0⟩ : Vec2)).point.y| > EPSILON) := by
    push_neg
    constructor <;>
      (simp only [ContourPoint.mkOn, EPSILON_eq]; rw [abs_le]; constructor <;> norm_num)
  have hC : ¬(|(ContourPoint.mkOn (⟨-(1 / 100000), 0⟩ : Vec2)).point.x -
        (ContourPoint.mkOn (⟨0, 0⟩ : Vec2)).point.x| > EPSILON ∨
      |(ContourPoint.mkOn (⟨-(1 / 100000), 0⟩ : Vec2)).point.y -
        (ContourPoint.mkOn (⟨0, 0⟩ : Vec2)).point.y| > EPSILON) := by
    push_neg
    constructor <;>
      (simp only [ContourPoint.mkOn, EPSILON_eq]; rw [abs_le]; constructor <;> norm_num)
  have hD : (|(ContourPoint.mkOn (⟨0, 3⟩ : Vec2)).point.x -
        (ContourPoint.mkOn (⟨0, 0⟩ : Vec2)).point.x| > EPSILON ∨
      |(ContourPoint.mkOn (⟨0, 3⟩ : Vec2)).point.y -
        (ContourPoint.mkOn (⟨0, 0⟩ : Vec2)).point.y| > EPSILON) := by
    right
    simp only [ContourPoint.mkOn, EPSILON_eq]
    exact lt_abs.mpr (Or.inl (by norm_num))
  have hlhs : remove_collinear_points
      [ContourPoint.mkOn ⟨0, 0⟩, ContourPoint.mkOn ⟨3, 0⟩, ContourPoint.mkOn ⟨0, 3⟩,
        ContourPoint.mkOn ⟨-(1 / 100000), 0⟩, ContourPoint.mkOn ⟨1 / 100000, 0⟩] =
      [ContourPoint.mkOn ⟨0, 0⟩, ContourPoint.mkOn ⟨3, 0⟩, ContourPoint.mkOn ⟨0, 3⟩] := by
    unfold remove_collinear_points
    rw [if_neg (by simp)]
    show (if ((popRev (ContourPoint.mkOn (⟨0, 0⟩ : Vec2)).point
        ((ContourPoint.mkOn ⟨0, 0⟩ :: keepPass (ContourPoint.mkOn ⟨0, 0⟩)
          [ContourPoint.mkOn ⟨3, 0⟩, ContourPoint.mkOn ⟨0, 3⟩,
            ContourPoint.mkOn ⟨-(1 / 100000), 0⟩]
          (ContourPoint.mkOn ⟨1 / 100000, 0⟩)).reverse)).reverse).length < 3 then []
      else (popRev (ContourPoint.mkOn (⟨0, 0⟩ : Vec2)).point
        ((ContourPoint.mkOn ⟨0, 0⟩ :: keepPass (ContourPoint.mkOn ⟨0, 0⟩)
          [ContourPoint.mkOn ⟨3, 0⟩, ContourPoint.mkOn ⟨0, 3⟩,
            ContourPoint.mkOn ⟨-(1 / 100000), 0⟩]
          (ContourPoint.mkOn ⟨1 / 100000, 0⟩)).reverse)).reverse) = _
    rw [hkp]
    rw [show (ContourPoint.mkOn (⟨0, 0⟩ : Vec2) ::
        [ContourPoint.mkOn (⟨3, 0⟩ : Vec2), ContourPoint.mkOn ⟨0, 3⟩,
          ContourPoint.mkOn ⟨-(1 / 100000), 0⟩, ContourPoint.mkOn ⟨1 / 100000, 0⟩]).reverse =
      [ContourPoint.mkOn ⟨1 / 100000, 0⟩, ContourPoint.mkOn ⟨-(1 / 100000), 0⟩,
        ContourPoint.mkOn ⟨0, 3⟩, ContourPoint.mkOn ⟨3, 0⟩,
        ContourPoint.mkOn ⟨0, 0⟩] from rfl]
    rw [popRev, if_neg hY, popRev, if_neg hC, popRev, if_pos hD]
    · rfl
    · simp
    · simp
    · simp
  have hspecK : specKeep
      [ContourPoint.mkOn ⟨0, 0⟩, ContourPoint.mkOn ⟨3, 0⟩, ContourPoint.mkOn ⟨0, 3⟩,
        ContourPoint.mkOn ⟨-(1 / 100000), 0⟩, ContourPoint.mkOn ⟨1 / 100000, 0⟩] =
      [ContourPoint.mkOn ⟨0, 0⟩, ContourPoint.mkOn ⟨3, 0⟩, ContourPoint.mkOn ⟨0, 3⟩,
        ContourPoint.mkOn ⟨-(1 / 100000), 0⟩, ContourPoint.mkOn ⟨1 / 100000, 0⟩] := by
    unfold specKeep
    exact (keepPass_zip_foldl
      ([ContourPoint.mkOn ⟨3, 0⟩, ContourPoint.mkOn ⟨0, 3⟩,
        ContourPoint.mkOn ⟨-(1 / 100000), 0⟩] : List ContourPoint)
      (ContourPoint.mkOn ⟨1 / 100000, 0⟩)
      [ContourPoint.mkOn ⟨0, 0⟩] (ContourPoint.mkOn ⟨0, 0⟩) rfl).trans (by rw [hkp]; rfl)
  have hrhs : spec_simplify_single
      [ContourPoint.mkOn ⟨0, 0⟩, ContourPoint.mkOn ⟨3, 0⟩, ContourPoint.mkOn ⟨0, 3⟩,
        ContourPoint.mkOn ⟨-(1 / 100000), 0⟩, ContourPoint.mkOn ⟨1 / 100000, 0⟩] =
      [ContourPoint.mkOn ⟨0, 0⟩, ContourPoint.mkOn ⟨3, 0⟩, ContourPoint.mkOn ⟨0, 3⟩,
        ContourPoint.mkOn ⟨-(1 / 100000), 0⟩] := by
    have hdrop : specDropOnce
        ([ContourPoint.mkOn ⟨0, 0⟩, ContourPoint.mkOn ⟨3, 0⟩, ContourPoint.mkOn ⟨0, 3⟩,
          ContourPoint.mkOn ⟨-(1 / 100000), 0⟩,
          ContourPoint.mkOn ⟨1 / 100000, 0⟩] : List ContourPoint).headI.point
        (specKeep [ContourPoint.mkOn ⟨0, 0⟩, ContourPoint.mkOn ⟨3, 0⟩,
          ContourPoint.mkOn ⟨0, 3⟩, ContourPoint.mkOn ⟨-(1 / 100000), 0⟩,
          ContourPoint.mkOn ⟨1 / 100000, 0⟩]) =
        [ContourPoint.mkOn ⟨0, 0⟩, ContourPoint.mkOn ⟨3, 0⟩, ContourPoint.mkOn ⟨0, 3⟩,
          ContourPoint.mkOn ⟨-(1 / 100000), 0⟩] := by
      rw [hspecK]
      unfold specDropOnce
      rw [if_pos]
      · rfl
      · refine ⟨by simp, ?_, ?_⟩
        · show |(ContourPoint.mkOn (⟨1 / 100000, 0⟩ : Vec2)).point.x -
              (ContourPoint.mkOn (⟨0, 0⟩ : Vec2)).point.x| ≤ EPSILON
          simp only [ContourPoint.mkOn, EPSILON_eq]
          rw [abs_le]
          constructor <;> norm_num
        · show |(ContourPoint.mkOn (⟨1 / 100000, 0⟩ : Vec2)).point.y -
              (ContourPoint.mkOn (⟨0, 0⟩ : Vec2)).point.y| ≤ EPSILON
          simp only [ContourPoint.mkOn, EPSILON_eq]
          rw [abs_le]
          constructor <;> norm_num
    unfold spec_simplify_single
    rw [if_neg (by simp), hdrop]
    rw [if_neg (by simp)]
  rw [hlhs, hrhs]
  intro h
  have := congrArg List.length h
  simp at this

theorem keepPass_mem (lastKept : ContourPoint) :
    ∀ (mid : List ContourPoint) (lst q : ContourPoint),
      q ∈ keepPass lastKept mid lst → q ∈ mid ∨ q = lst := by
  intro mid
  induction mid generalizing lastKept with
  | nil =>
    intro lst q hq
    simp [keepPass] at hq
    exact Or.inr hq
  | cons p rest ih =>
    intro lst q hq
    simp only [keepPass] at hq
    by_cases hc : EPSILON < triangle_area lastKept.point p.point
        (match rest with | [] => lst | a :: _ => a).point
    · rw [if_pos hc] at hq
      rcases List.mem_cons.mp hq with h | h
      · exact Or.inl (List.mem_cons.mpr (Or.inl h))
      · rcases ih p lst q h with h' | h'
        · exact Or.inl (List.mem_cons.mpr (Or.inr h'))
        · exact Or.inr h'
    · rw [if_neg hc] at hq
      rcases ih lastKept lst q hq with h' | h'
      · exact Or.inl (List.mem_cons.mpr (Or.inr h'))
      · exact Or.inr h'

theorem popRev_sublist (first : Vec2) :
    ∀ (l : List ContourPoint) (q : ContourPoint), q ∈ popRev first l → q ∈ l := by
  intro l
  induction l with
  | nil => intro q hq; simpa [popRev] using hq
  | cons p rest ih =>
    intro q hq
    cases rest with
    | nil => simpa [popRev] using hq
    | cons r rs =>
      rw [popRev] at hq
      · by_cases hc : |p.point.x - first.x| > EPSILON ∨ |p.point.y - first.y| > EPSILON
        · rw [if_pos hc] at hq
          exact hq
        · rw [if_neg hc] at hq
          exact List.mem_cons.mpr (Or.inr (ih q hq))
      · simp

theorem remove_collinear_points_mem (pts : List ContourPoint) (q : ContourPoint)
    (hq : q ∈ remove_collinear_points pts) : q ∈ pts := by
  unfold remove_collinear_points at hq
  by_cases hlen : pts.length < 3
  · rwa [if_pos hlen] at hq
  · rw [if_neg hlen] at hq
    match pts, hlen, hq with
    | p0 :: rest, hlen, hq =>
      replace hq : q ∈ (if ((popRev p0.point
          (p0 :: keepPass p0 rest.dropLast (rest.getLastD p0)).reverse).reverse).length < 3
        then ([] : List ContourPoint)
        else (popRev p0.point
          (p0 :: keepPass p0 rest.dropLast (rest.getLastD p0)).reverse).reverse) := hq
      by_cases hsm : ((popRev p0.point
          (p0 :: keepPass p0 rest.dropLast (rest.getLastD p0)).reverse).reverse).length < 3
      · rw [if_pos hsm] at hq
        simp at hq
      · rw [if_neg hsm] at hq
        rw [List.mem_reverse] at hq
        have h1 := popRev_sublist p0.point _ _ hq
        rw [List.mem_reverse, List.mem_cons] at h1
        rcases h1 with h | h
        · exact h ▸ List.mem_cons_self _ _
        · rcases keepPass_mem p0 rest.dropLast (rest.getLastD p0) q h with h' | h'
          · exact List.mem_cons.mpr (Or.inr (List.dropLast_sublist rest |>.mem h'))
          · cases rest with
            | nil => exact h' ▸ List.mem_cons_self _ _
            | cons r rs =>
              have : (r :: rs).getLastD p0 = (r :: rs).getLast (by simp) := by
                rw [List.getLastD_eq_getLast?, List.getLast?_eq_getLast _ (by simp)]
                rfl
              rw [this] at h'
              exact List.mem_cons.mpr (Or.inr (h' ▸ List.getLast_mem _))

theorem linStep_on_curve (s : ℕ) (st : LinearizeState) (cp : ContourPoint) (q : ContourPoint)
    (hq : q ∈ (linStep s st cp).1) : q.on_curve = true := by
  unfold linStep at hq
  rcases st with _ | last | ⟨last, control⟩
  · simp at hq
    simp [hq, ContourPoint.mkOn]
  · by_cases hc : cp.on_curve
    · simp [hc] at hq
      simp [hq, ContourPoint.mkOn]
    · simp [hc] at hq
  · by_cases hc : cp.on_curve
    · simp [hc] at hq
      rcases hq with ⟨a, -, ha⟩ | hq
      · simp [← ha, ContourPoint.mkOn]
      · simp [hq, ContourPoint.mkOn]
    · simp [hc] at hq
      rcases hq with ⟨a, -, ha⟩ | hq
      · simp [← ha, ContourPoint.mkOn]
      · simp [hq, ContourPoint.mkOn]

theorem linFold_on_curve (s : ℕ) :
    ∀ (pts : List ContourPoint) (st : LinearizeState) (q : ContourPoint),
      q ∈ (linFold s pts st).1 → q.on_curve = true := by
  intro pts
  induction pts with
  | nil => intro st q hq; simp [linFold] at hq
  | cons p rest ih =>
    intro st q hq
    simp only [linFold] at hq
    rcases List.mem_append.mp hq with h | h
    · exact linStep_on_curve s st p q h
    · exact ih _ q h

theorem linClose_on_curve (s : ℕ) (closed : Bool) (fp : Vec2) (st : LinearizeState)
    (q : ContourPoint) (hq : q ∈ linClose s closed fp st) : q.on_curve = true := by
  unfold linClose at hq
  rcases st with _ | last | ⟨last, control⟩
  · simp at hq
  · simp at hq
  · replace hq : q ∈ (if closed = true then
        List.map ContourPoint.mkOn (linearize_qbezier last control fp s)
      else ([] : List ContourPoint)) := hq
    by_cases hc : closed = true
    · rw [if_pos hc] at hq
      obtain ⟨a, -, ha⟩ := List.mem_map.mp hq
      simp [← ha, ContourPoint.mkOn]
    · rw [if_neg hc] at hq
      simp at hq

/-- **C8 (amended).** Every contour of `linearize_outline`'s output either
consists purely of on-curve points, or had fewer than 2 points and was passed
through verbatim (possibly retaining an off-curve flag). -/
theorem linearize_outline_on_curve (o : Outline2D) (s : ℕ) (c : Contour)
    (hc : c ∈ (linearize_outline o s).contours) :
    (∀ p ∈ c.points, p.on_curve = true) ∨ c.points.length < 2 := by
  unfold linearize_outline at hc
  simp only [List.mem_filter, List.mem_map] at hc
  obtain ⟨⟨c0, -, hc0⟩, -⟩ := hc
  subst hc0
  unfold linearize_contour
  by_cases hlen : c0.points.length < 2
  · rw [if_pos hlen]
    exact Or.inr hlen
  · rw [if_neg hlen]
    left
    intro p hp
    have hmem := remove_collinear_points_mem _ _ hp
    rcases List.mem_append.mp hmem with h | h
    · exact linFold_on_curve s _ _ _ h
    · exact linClose_on_curve s _ _ _ _ h

/-- Witness for the on-curve theorem at a concrete outline. -/
theorem linearize_outline_on_curve_witness :
    ((Contour.mk [ContourPoint.mkOn ⟨0, 0⟩] true) ∈
        (linearize_outline ⟨[⟨[ContourPoint.mkOn ⟨0, 0⟩], true⟩]⟩ 20).contours) ∧
    ((∀ p ∈ (Contour.mk [ContourPoint.mkOn ⟨0, 0⟩] true).points, p.on_curve = true) ∨
      (Contour.mk [ContourPoint.mkOn ⟨0, 0⟩] true).points.length < 2) := by
  have hmem : (Contour.mk [ContourPoint.mkOn ⟨0, 0⟩] true) ∈
      (linearize_outline ⟨[⟨[ContourPoint.mkOn ⟨0, 0⟩], true⟩]⟩ 20).contours := by
    have hc : (linearize_outline ⟨[⟨[ContourPoint.mkOn ⟨0, 0⟩], true⟩]⟩ 20).contours =
        [Contour.mk [ContourPoint.mkOn ⟨0, 0⟩] true] := rfl
    rw [hc]
    exact List.mem_singleton_self _
  exact ⟨hmem, linearize_outline_on_curve _ 20 _ hmem⟩

/-- **C8 counterexample.** A one-point contour holding an off-curve point is
passed through verbatim by `linearize_outline`, so the output is not purely
on-curve. -/
theorem linearize_outline_off_curve_cex :
    ¬(∀ c ∈ (linearize_outline ⟨[⟨[ContourPoint.mkOff ⟨0, 0⟩], true⟩]⟩ 20).contours,
        ∀ p ∈ c.points, p.on_curve = true) := by
  intro h
  have hc : (linearize_outline ⟨[⟨[ContourPoint.mkOff ⟨0, 0⟩], true⟩]⟩ 20).contours =
      [Contour.mk [ContourPoint.mkOff ⟨0, 0⟩] true] := rfl
  have := h (Contour.mk [ContourPoint.mkOff ⟨0, 0⟩] true)
    (by rw [hc]; exact List.mem_singleton_self _)
    (ContourPoint.mkOff ⟨0, 0⟩) (List.mem_singleton_self _)
  simp [ContourPoint.mkOff] at this

/-- States of the linearizer other than `OffCurve`. -/
def notOff : LinearizeState → Prop
  | .offCurve _ _ => False
  | _ => True

theorem linFold_all_on (s₁ s₂ : ℕ) :
    ∀ (pts : List ContourPoint), (∀ p ∈ pts, p.on_curve = true) →
      ∀ (st : LinearizeState), notOff st →
        linFold s₁ pts st = linFold s₂ pts st ∧ notOff (linFold s₁ pts st).2 := by
  intro pts
  induction pts with
  | nil => intro _ st hst; exact ⟨rfl, hst⟩
  | cons p rest ih =>
    intro h st hst
    have hp : p.on_curve = true := h p (List.mem_cons_self _ _)
    have hrest : ∀ q ∈ rest, q.on_curve = true := fun q hq => h q (List.mem_cons.mpr (Or.inr hq))
    have hstep : ∀ s : ℕ, linStep s st p = ([ContourPoint.mkOn p.point], .onCurve p.point) := by
      intro s
      rcases st with _ | last | ⟨last, control⟩
      · rfl
      · simp [linStep, hp]
      · exact absurd hst (by simp [notOff])
    have hnext : notOff (LinearizeState.onCurve p.point) := by simp [notOff]
    obtain ⟨heq, hno⟩ := ih hrest (.onCurve p.point) hnext
    constructor
    · simp only [linFold, hstep, heq]
    · simp only [linFold, hstep]
      exact hno

theorem linClose_notOff (s : ℕ) (closed : Bool) (fp : Vec2) (st : LinearizeState)
    (hst : notOff st) : linClose s closed fp st = [] := by
  rcases st with _ | last | ⟨last, control⟩
  · rfl
  · rfl
  · exact absurd hst (by simp [notOff])

theorem linearize_contour_all_on (c : Contour) (h : ∀ p ∈ c.points, p.on_curve = true)
    (s₁ s₂ : ℕ) : linearize_contour c s₁ = linearize_contour c s₂ := by
  unfold linearize_contour
  by_cases hlen : c.points.length < 2
  · rw [if_pos hlen, if_pos hlen]
  · rw [if_neg hlen, if_neg hlen]
    obtain ⟨heq, hno⟩ := linFold_all_on s₁ s₂ c.points h .initial (by simp [notOff])
    have hno₂ : notOff (linFold s₂ c.points .initial).2 := heq ▸ hno
    show Contour.mk (remove_collinear_points ((linFold s₁ c.points .initial).1 ++
        linClose s₁ c.closed c.points.headI.point (linFold s₁ c.points .initial).2)) c.closed =
      Contour.mk (remove_collinear_points ((linFold s₂ c.points .initial).1 ++
        linClose s₂ c.closed c.points.headI.point (linFold s₂ c.points .initial).2)) c.closed
    rw [heq, linClose_notOff s₁ c.closed _ _ hno₂, linClose_notOff s₂ c.closed _ _ hno₂]

theorem linearize_outline_all_on (o : Outline2D)
    (h : ∀ c ∈ o.contours, ∀ p ∈ c.points, p.on_curve = true) (s₁ s₂ : ℕ) :
    linearize_outline o s₁ = linearize_outline o s₂ := by
  unfold linearize_outline
  have hmap : o.contours.map (fun c => linearize_contour c s₁) =
      o.contours.map (fun c => linearize_contour c s₂) :=
    List.map_congr_left (fun c hc => linearize_contour_all_on c (h c hc) s₁ s₂)
  rw [hmap]

theorem rustRoundNat_mono {x y : ℝ} (h : x ≤ y) : rustRoundNat x ≤ rustRoundNat y :=
  Nat.floor_le_floor (by linarith)

theorem linearize_qbezier_length_mono (p0 p1 p2 : Vec2) {s s' : ℕ} (h : s ≤ s') :
    (linearize_qbezier p0 p1 p2 s).length ≤ (linearize_qbezier p0 p1 p2 s').length := by
  rw [linearize_qbezier_eq, linearize_qbezier_eq]
  by_cases h1 : triangle_area p0 p1 p2 < AREA_THRESHOLD
  · rw [if_pos h1, if_pos h1]
  · rw [if_neg h1, if_neg h1]
    by_cases h2 : ((p1 - p0).smul 2).length < EPSILON ∨ ((p2 - p1).smul 2).length < EPSILON
    · rw [if_pos h2, if_pos h2]
    · rw [if_neg h2, if_neg h2]
      simp only [List.length_map, List.length_range]
      unfold qbNumPoints
      apply rustRoundNat_mono
      have hmin : 0 ≤ min (|((p1 - p0).smul 2).x * ((p2 - p1).smul 2).y -
          ((p1 - p0).smul 2).y * ((p2 - p1).smul 2).x| *
          (1 / (((p1 - p0).smul 2).length * ((p2 - p1).smul 2).length))) 1 := by
        apply le_min _ zero_le_one
        apply mul_nonneg (abs_nonneg _)
        apply one_div_nonneg.mpr
        apply mul_nonneg <;> exact Real.sqrt_nonneg _
      have harc : 0 ≤ Real.arcsin (min (|((p1 - p0).smul 2).x * ((p2 - p1).smul 2).y -
          ((p1 - p0).smul 2).y * ((p2 - p1).smul 2).x| *
          (1 / (((p1 - p0).smul 2).length * ((p2 - p1).smul 2).length))) 1) :=
        Real.arcsin_nonneg.mpr hmin
      have hc : 0 ≤ Real.arcsin (min (|((p1 - p0).smul 2).x * ((p2 - p1).smul 2).y -
          ((p1 - p0).smul 2).y * ((p2 - p1).smul 2).x| *
          (1 / (((p1 - p0).smul 2).length * ((p2 - p1).smul 2).length))) 1) /
          (Real.pi * 2) := by
        apply div_nonneg harc
        positivity
      exact mul_le_mul_of_nonneg_left (Nat.cast_le.mpr h) hc

/-- **C4 (amended).** For an outline made only of on-curve points (straight
lines), the linearized vertex counts at subdivisions 10, 20 and 50 are
identical (the output does not depend on the subdivision count at all).  For
curved segments, each quadratic's emitted interior point count is monotone in
the subdivision count BEFORE post-simplification; the total vertex count
after simplification is not monotone (see the counterexample). -/
theorem subdivision_vertex_counts :
    (∀ o : Outline2D, (∀ c ∈ o.contours, ∀ p ∈ c.points, p.on_curve = true) →
      outlineVertexCount (linearize_outline o 10) = outlineVertexCount (linearize_outline o 20) ∧
      outlineVertexCount (linearize_outline o 20) =
        outlineVertexCount (linearize_outline o 50)) ∧
    (∀ (p0 p1 p2 : Vec2) (s s' : ℕ), s ≤ s' →
      (linearize_qbezier p0 p1 p2 s).length ≤ (linearize_qbezier p0 p1 p2 s').length) := by
  constructor
  · intro o h
    constructor
    · rw [linearize_outline_all_on o h 10 20]
    · rw [linearize_outline_all_on o h 20 50]
  · intro p0 p1 p2 s s' h
    exact linearize_qbezier_length_mono p0 p1 p2 h

/-- Witness for the amended subdivision count theorem on a square outline. -/
theorem subdivision_vertex_counts_witness :
    ((∀ c ∈ (Outline2D.mk [⟨[ContourPoint.mkOn ⟨0, 0⟩, ContourPoint.mkOn ⟨1, 0⟩,
          ContourPoint.mkOn ⟨1, 1⟩, ContourPoint.mkOn ⟨0, 1⟩], true⟩]).contours,
        ∀ p ∈ c.points, p.on_curve = true) ∧ 10 ≤ 20) ∧
    outlineVertexCount (linearize_outline
        ⟨[⟨[ContourPoint.mkOn ⟨0, 0⟩, ContourPoint.mkOn ⟨1, 0⟩,
          ContourPoint.mkOn ⟨1, 1⟩, ContourPoint.mkOn ⟨0, 1⟩], true⟩]⟩ 10) =
      outlineVertexCount (linearize_outline
        ⟨[⟨[ContourPoint.mkOn ⟨0, 0⟩, ContourPoint.mkOn ⟨1, 0⟩,
          ContourPoint.mkOn ⟨1, 1⟩, ContourPoint.mkOn ⟨0, 1⟩], true⟩]⟩ 20) ∧
    (linearize_qbezier ⟨0, 0⟩ ⟨1, 0⟩ ⟨1, 1⟩ 10).length ≤
      (linearize_qbezier ⟨0, 0⟩ ⟨1, 0⟩ ⟨1, 1⟩ 20).length := by
  have hflags : ∀ c ∈ (Outline2D.mk [⟨[ContourPoint.mkOn ⟨0, 0⟩, ContourPoint.mkOn ⟨1, 0⟩,
      ContourPoint.mkOn ⟨1, 1⟩, ContourPoint.mkOn ⟨0, 1⟩], true⟩]).contours,
      ∀ p ∈ c.points, p.on_curve = true := by
    intro c hc p hp
    simp only [List.mem_singleton] at hc
    subst hc
    simp only [List.mem_cons, List.not_mem_nil, or_false] at hp
    rcases hp with h | h | h | h <;> simp [h, ContourPoint.mkOn]
  exact ⟨⟨hflags, by decide⟩, (subdivision_vertex_counts.1 _ hflags).1,
    subdivision_vertex_counts.2 _ _ _ 10 20 (by decide)⟩

theorem Vec2.length_eval (v : Vec2) (c : ℝ) (hc : 0 ≤ c) (h : v.x * v.x + v.y * v.y = c * c) :
    v.length = c := by
  unfold Vec2.length Vec2.length_squared
  rw [h]
  exact Real.sqrt_mul_self hc

theorem rustRoundNat_eq (x : ℝ) (n : ℕ) (h1 : (n : ℝ) ≤ x + 1 / 2) (h2 : x + 1 / 2 < n + 1) :
    rustRoundNat x = n := by
  unfold rustRoundNat
  exact (Nat.floor_eq_iff (le_trans (Nat.cast_nonneg n) h1)).mpr ⟨h1, h2⟩

theorem triangle_area_keep (p0 p1 p2 : Vec2)
    (hfast : EPSILON * EPSILON ≤ (p0 - p1).length_squared ∧
      EPSILON * EPSILON ≤ (p1 - p2).length_squared ∧
      EPSILON * EPSILON ≤ (p2 - p0).length_squared)
    (hbig : 2 * EPSILON < |cross2 p0 p1 p2|) :
    EPSILON < triangle_area p0 p1 p2 := by
  rw [triangle_area_eq, if_neg (by push_neg; exact ⟨hfast.1, hfast.2.1, hfast.2.2⟩)]
  linarith

theorem triangle_area_drop (p0 p1 p2 : Vec2)
    (hsmall : |cross2 p0 p1 p2| ≤ 2 * EPSILON) :
    ¬(EPSILON < triangle_area p0 p1 p2) := by
  rw [triangle_area_eq]
  by_cases hf : (p0 - p1).length_squared < EPSILON * EPSILON ∨
      (p1 - p2).length_squared < EPSILON * EPSILON ∨
      (p2 - p0).length_squared < EPSILON * EPSILON
  · rw [if_pos hf]
    push_neg
    rw [EPSILON_eq]
    norm_num
  · rw [if_neg hf]
    push_neg
    linarith

theorem qbezier_eval (p0 p1 p2 : Vec2) (t a b : ℝ)
    (hx : p0.x * ((1 - t) * (1 - t)) + p1.x * (2 * ((1 - t) * t)) + p2.x * (t * t) = a)
    (hy : p0.y * ((1 - t) * (1 - t)) + p1.y * (2 * ((1 - t) * t)) + p2.y * (t * t) = b) :
    qbezier p0 p1 p2 t = ⟨a, b⟩ := by
  unfold qbezier
  simp only [Vec2.smul_def, Vec2.add_def, Vec2.mk.injEq]
  exact ⟨hx, hy⟩

theorem qbcex_len1 : ((Vec2.mk (1 / 125) 0 - Vec2.mk 0 0).smul 2).length = 2 / 125 := by
  apply Vec2.length_eval _ _ (by norm_num)
  simp only [Vec2.sub_def, Vec2.smul_def]
  norm_num

theorem qbcex_len2 :
    ((Vec2.mk (1 / 125) (1 / 125) - Vec2.mk (1 / 125) 0).smul 2).length = 2 / 125 := by
  apply Vec2.length_eval _ _ (by norm_num)
  simp only [Vec2.sub_def, Vec2.smul_def]
  norm_num

theorem qbcex_area :
    ¬(triangle_area ⟨0, 0⟩ ⟨1 / 125, 0⟩ ⟨1 / 125, 1 / 125⟩ < AREA_THRESHOLD) := by
  rw [triangle_area_eq, if_neg]
  · have hcr : cross2 ⟨0, 0⟩ ⟨1 / 125, 0⟩ ⟨1 / 125, 1 / 125⟩ = 1 / 15625 := by
      simp only [cross2]
      norm_num
    rw [hcr, abs_of_nonneg (by norm_num : (0:ℝ) ≤ 1 / 15625), AREA_THRESHOLD_eq]
    norm_num
  · push_neg
    refine ⟨?_, ?_, ?_⟩ <;>
      (simp only [Vec2.sub_def, Vec2.length_squared, EPSILON_eq]; norm_num)

theorem qbcex_tan :
    ¬(((Vec2.mk (1 / 125) 0 - Vec2.mk 0 0).smul 2).length < EPSILON ∨
      ((Vec2.mk (1 / 125) (1 / 125) - Vec2.mk (1 / 125) 0).smul 2).length < EPSILON) := by
  rw [qbcex_len1, qbcex_len2, EPSILON_eq]
  push_neg
  constructor <;> norm_num

theorem qbcex_num (s : ℕ) (n : ℕ) (h1 : (n : ℝ) ≤ (s : ℝ) / 4 + 1 / 2)
    (h2 : (s : ℝ) / 4 + 1 / 2 < n + 1) :
    qbNumPoints ⟨0, 0⟩ ⟨1 / 125, 0⟩ ⟨1 / 125, 1 / 125⟩ s = n := by
  unfold qbNumPoints
  rw [qbcex_len1, qbcex_len2]
  have hcr : |((Vec2.mk (1 / 125) 0 - Vec2.mk 0 0).smul 2).x *
      ((Vec2.mk (1 / 125) (1 / 125) - Vec2.mk (1 / 125) 0).smul 2).y -
      ((Vec2.mk (1 / 125) 0 - Vec2.mk 0 0).smul 2).y *
      ((Vec2.mk (1 / 125) (1 / 125) - Vec2.mk (1 / 125) 0).smul 2).x| = 4 / 15625 := by
    simp only [Vec2.sub_def, Vec2.smul_def]
    rw [abs_of_nonneg] <;> norm_num
  rw [hcr]
  have hone : min ((4:ℝ) / 15625 * (1 / (2 / 125 * (2 / 125)))) 1 = 1 := by norm_num
  rw [hone, Real.arcsin_one]
  have harg : Real.pi / 2 / (Real.pi * 2) * (s : ℝ) = (s : ℝ) / 4 := by
    have hpi := Real.pi_ne_zero
    field_simp
    ring
  rw [harg]
  exact rustRoundNat_eq _ _ h1 h2

theorem qbcex_lq10 :
    linearize_qbezier ⟨0, 0⟩ ⟨1 / 125, 0⟩ ⟨1 / 125, 1 / 125⟩ 10 =
      [⟨7 / 2000, 1 / 2000⟩, ⟨3 / 500, 1 / 500⟩, ⟨3 / 400, 9 / 2000⟩] := by
  rw [linearize_qbezier_eq, if_neg qbcex_area, if_neg qbcex_tan,
    qbcex_num 10 3 (by norm_num) (by norm_num)]
  rw [show List.range 3 = [0, 1, 2] from rfl]
  simp only [List.map_cons, List.map_nil, List.cons.injEq, and_true]
  refine ⟨?_, ?_, ?_⟩ <;>
    (apply qbezier_eval <;> (push_cast; norm_num))

theorem qbcex_lq20 :
    linearize_qbezier ⟨0, 0⟩ ⟨1 / 125, 0⟩ ⟨1 / 125, 1 / 125⟩ 20 =
      [⟨11 / 4500, 1 / 4500⟩, ⟨1 / 225, 1 / 1125⟩, ⟨3 / 500, 1 / 500⟩,
        ⟨8 / 1125, 4 / 1125⟩, ⟨7 / 900, 1 / 180⟩] := by
  rw [linearize_qbezier_eq, if_neg qbcex_area, if_neg qbcex_tan,
    qbcex_num 20 5 (by norm_num) (by norm_num)]
  rw [show List.range 5 = [0, 1, 2, 3, 4] from rfl]
  simp only [List.map_cons, List.map_nil, List.cons.injEq, and_true]
  refine ⟨?_, ?_, ?_, ?_, ?_⟩ <;>
    (apply qbezier_eval <;> (push_cast; norm_num))

theorem qbcex_kp10 : keepPass (ContourPoint.mkOn ⟨0, 0⟩)
    [ContourPoint.mkOn ⟨7 / 2000, 1 / 2000⟩, ContourPoint.mkOn ⟨3 / 500, 1 / 500⟩,
      ContourPoint.mkOn ⟨3 / 400, 9 / 2000⟩] (ContourPoint.mkOn ⟨1 / 125, 1 / 125⟩) =
    [ContourPoint.mkOn ⟨3 / 400, 9 / 2000⟩, ContourPoint.mkOn ⟨1 / 125, 1 / 125⟩] := by
  have d1 : ¬(EPSILON < triangle_area ⟨0, 0⟩ ⟨7 / 2000, 1 / 2000⟩ ⟨3 / 500, 1 / 500⟩) := by
    apply triangle_area_drop
    have : cross2 ⟨0, 0⟩ ⟨7 / 2000, 1 / 2000⟩ ⟨3 / 500, 1 / 500⟩ = 1 / 250000 := by
      simp only [cross2]
      norm_num
    rw [this, EPSILON_eq, abs_of_nonneg (by norm_num : (0:ℝ) ≤ 1 / 250000)]
    norm_num
  have d2 : ¬(EPSILON < triangle_area ⟨0, 0⟩ ⟨3 / 500, 1 / 500⟩ ⟨3 / 400, 9 / 2000⟩) := by
    apply triangle_area_drop
    have : cross2 ⟨0, 0⟩ ⟨3 / 500, 1 / 500⟩ ⟨3 / 400, 9 / 2000⟩ = 3 / 250000 := by
      simp only [cross2]
      norm_num
    rw [this, EPSILON_eq, abs_of_nonneg (by norm_num : (0:ℝ) ≤ 3 / 250000)]
    norm_num
  have k3 : EPSILON < triangle_area ⟨0, 0⟩ ⟨3 / 400, 9 / 2000⟩ ⟨1 / 125, 1 / 125⟩ := by
    apply triangle_area_keep
    · refine ⟨?_, ?_, ?_⟩ <;>
        (simp only [Vec2.sub_def, Vec2.length_squared, EPSILON_eq]; norm_num)
    · have : cross2 ⟨0, 0⟩ ⟨3 / 400, 9 / 2000⟩ ⟨1 / 125, 1 / 125⟩ = 3 / 125000 := by
        simp only [cross2]
        norm_num
      rw [this, EPSILON_eq, abs_of_nonneg (by norm_num : (0:ℝ) ≤ 3 / 125000)]
      norm_num
  simp only [keepPass, ContourPoint.mkOn]
  rw [if_neg d1, if_neg d2, if_pos k3]

theorem qbcex_kp20 : keepPass (ContourPoint.mkOn ⟨0, 0⟩)
    [ContourPoint.mkOn ⟨11 / 4500, 1 / 4500⟩, ContourPoint.mkOn ⟨1 / 225, 1 / 1125⟩,
      ContourPoint.mkOn ⟨3 / 500, 1 / 500⟩, ContourPoint.mkOn ⟨8 / 1125, 4 / 1125⟩,
      ContourPoint.mkOn ⟨7 / 900, 1 / 180⟩] (ContourPoint.mkOn ⟨1 / 125, 1 / 125⟩) =
    [ContourPoint.mkOn ⟨1 / 125, 1 / 125⟩] := by
  have e1 : ¬(EPSILON < triangle_area ⟨0, 0⟩ ⟨11 / 4500, 1 / 4500⟩ ⟨1 / 225, 1 / 1125⟩) := by
    apply triangle_area_drop
    have : cross2 ⟨0, 0⟩ ⟨11 / 4500, 1 / 4500⟩ ⟨1 / 225, 1 / 1125⟩ = 2 / 1687500 := by
      simp only [cross2]
      norm_num
    rw [this, EPSILON_eq, abs_of_nonneg (by norm_num : (0:ℝ) ≤ 2 / 1687500)]
    norm_num
  have e2 : ¬(EPSILON < triangle_area ⟨0, 0⟩ ⟨1 / 225, 1 / 1125⟩ ⟨3 / 500, 1 / 500⟩) := by
    apply triangle_area_drop
    have : cross2 ⟨0, 0⟩ ⟨1 / 225, 1 / 1125⟩ ⟨3 / 500, 1 / 500⟩ = 2 / 562500 := by
      simp only [cross2]
      norm_num
    rw [this, EPSILON_eq, abs_of_nonneg (by norm_num : (0:ℝ) ≤ 2 / 562500)]
    norm_num
  have e3 : ¬(EPSILON < triangle_area ⟨0, 0⟩ ⟨3 / 500, 1 / 500⟩ ⟨8 / 1125, 4 / 1125⟩) := by
    apply triangle_area_drop
    have : cross2 ⟨0, 0⟩ ⟨3 / 500, 1 / 500⟩ ⟨8 / 1125, 4 / 1125⟩ = 4 / 562500 := by
      simp only [cross2]
      norm_num
    rw [this, EPSILON_eq, abs_of_nonneg (by norm_num : (0:ℝ) ≤ 4 / 562500)]
    norm_num
  have e4 : ¬(EPSILON < triangle_area ⟨0, 0⟩ ⟨8 / 1125, 4 / 1125⟩ ⟨7 / 900, 1 / 180⟩) := by
    apply triangle_area_drop
    have : cross2 ⟨0, 0⟩ ⟨8 / 1125, 4 / 1125⟩ ⟨7 / 900, 1 / 180⟩ = 12 / 1012500 := by
      simp only [cross2]
      norm_num
    rw [this, EPSILON_eq, abs_of_nonneg (by norm_num : (0:ℝ) ≤ 12 / 1012500)]
    norm_num
  have e5 : ¬(EPSILON < triangle_area ⟨0, 0⟩ ⟨7 / 900, 1 / 180⟩ ⟨1 / 125, 1 / 125⟩) := by
    apply triangle_area_drop
    have : cross2 ⟨0, 0⟩ ⟨7 / 900, 1 / 180⟩ ⟨1 / 125, 1 / 125⟩ = 2 / 112500 := by
      simp only [cross2]
      norm_num
    rw [this, EPSILON_eq, abs_of_nonneg (by norm_num : (0:ℝ) ≤ 2 / 112500)]
    norm_num
  simp only [keepPass, ContourPoint.mkOn]
  rw [if_neg e1, if_neg e2, if_neg e3, if_neg e4, if_neg e5]

theorem qbcex_far : |(ContourPoint.mkOn (⟨1 / 125, 1 / 125⟩ : Vec2)).point.x -
      (ContourPoint.mkOn (⟨0, 0⟩ : Vec2)).point.x| > EPSILON ∨
    |(ContourPoint.mkOn (⟨1 / 125, 1 / 125⟩ : Vec2)).point.y -
      (ContourPoint.mkOn (⟨0, 0⟩ : Vec2)).point.y| > EPSILON := by
  left
  simp only [ContourPoint.mkOn, EPSILON_eq]
  exact lt_abs.mpr (Or.inl (by norm_num))

theorem qbcex_rc10 : remove_collinear_points
    [ContourPoint.mkOn ⟨0, 0⟩, ContourPoint.mkOn ⟨7 / 2000, 1 / 2000⟩,
      ContourPoint.mkOn ⟨3 / 500, 1 / 500⟩, ContourPoint.mkOn ⟨3 / 400, 9 / 2000⟩,
      ContourPoint.mkOn ⟨1 / 125, 1 / 125⟩] =
    [ContourPoint.mkOn ⟨0, 0⟩, ContourPoint.mkOn ⟨3 / 400, 9 / 2000⟩,
      ContourPoint.mkOn ⟨1 / 125, 1 / 125⟩] := by
  unfold remove_collinear_points
  rw [if_neg (by simp)]
  show (if ((popRev (ContourPoint.mkOn (⟨0, 0⟩ : Vec2)).point
      ((ContourPoint.mkOn ⟨0, 0⟩ :: keepPass (ContourPoint.mkOn ⟨0, 0⟩)
        [ContourPoint.mkOn ⟨7 / 2000, 1 / 2000⟩, ContourPoint.mkOn ⟨3 / 500, 1 / 500⟩,
          ContourPoint.mkOn ⟨3 / 400, 9 / 2000⟩]
        (ContourPoint.mkOn ⟨1 / 125, 1 / 125⟩)).reverse)).reverse).length < 3 then []
    else (popRev (ContourPoint.mkOn (⟨0, 0⟩ : Vec2)).point
      ((ContourPoint.mkOn ⟨0, 0⟩ :: keepPass (ContourPoint.mkOn ⟨0, 0⟩)
        [ContourPoint.mkOn ⟨7 / 2000, 1 / 2000⟩, ContourPoint.mkOn ⟨3 / 500, 1 / 500⟩,
          ContourPoint.mkOn ⟨3 / 400, 9 / 2000⟩]
        (ContourPoint.mkOn ⟨1 / 125, 1 / 125⟩)).reverse)).reverse) = _
  rw [qbcex_kp10]
  rw [show (ContourPoint.mkOn (⟨0, 0⟩ : Vec2) ::
      [ContourPoint.mkOn (⟨3 / 400, 9 / 2000⟩ : Vec2),
        ContourPoint.mkOn ⟨1 / 125, 1 / 125⟩]).reverse =
    [ContourPoint.mkOn ⟨1 / 125, 1 / 125⟩, ContourPoint.mkOn ⟨3 / 400, 9 / 2000⟩,
      ContourPoint.mkOn ⟨0, 0⟩] from rfl]
  rw [popRev, if_pos qbcex_far]
  · rfl
  · simp

theorem qbcex_rc20 : remove_collinear_points
    [ContourPoint.mkOn ⟨0, 0⟩, ContourPoint.mkOn ⟨11 / 4500, 1 / 4500⟩,
      ContourPoint.mkOn ⟨1 / 225, 1 / 1125⟩, ContourPoint.mkOn ⟨3 / 500, 1 / 500⟩,
      ContourPoint.mkOn ⟨8 / 1125, 4 / 1125⟩, ContourPoint.mkOn ⟨7 / 900, 1 / 180⟩,
      ContourPoint.mkOn ⟨1 / 125, 1 / 125⟩] = [] := by
  unfold remove_collinear_points
  rw [if_neg (by simp)]
  show (if ((popRev (ContourPoint.mkOn (⟨0, 0⟩ : Vec2)).point
      ((ContourPoint.mkOn ⟨0, 0⟩ :: keepPass (ContourPoint.mkOn ⟨0, 0⟩)
        [ContourPoint.mkOn ⟨11 / 4500, 1 / 4500⟩, ContourPoint.mkOn ⟨1 / 225, 1 / 1125⟩,
          ContourPoint.mkOn ⟨3 / 500, 1 / 500⟩, ContourPoint.mkOn ⟨8 / 1125, 4 / 1125⟩,
          ContourPoint.mkOn ⟨7 / 900, 1 / 180⟩]
        (ContourPoint.mkOn ⟨1 / 125, 1 / 125⟩)).reverse)).reverse).length < 3 then []
    else (popRev (ContourPoint.mkOn (⟨0, 0⟩ : Vec2)).point
      ((ContourPoint.mkOn ⟨0, 0⟩ :: keepPass (ContourPoint.mkOn ⟨0, 0⟩)
        [ContourPoint.mkOn ⟨11 / 4500, 1 / 4500⟩, ContourPoint.mkOn ⟨1 / 225, 1 / 1125⟩,
          ContourPoint.mkOn ⟨3 / 500, 1 / 500⟩, ContourPoint.mkOn ⟨8 / 1125, 4 / 1125⟩,
          ContourPoint.mkOn ⟨7 / 900, 1 / 180⟩]
        (ContourPoint.mkOn ⟨1 / 125, 1 / 125⟩)).reverse)).reverse) = _
  rw [qbcex_kp20]
  rw [show (ContourPoint.mkOn (⟨0, 0⟩ : Vec2) ::
      [ContourPoint.mkOn (⟨1 / 125, 1 / 125⟩ : Vec2)]).reverse =
    [ContourPoint.mkOn ⟨1 / 125, 1 / 125⟩, ContourPoint.mkOn ⟨0, 0⟩] from rfl]
  rw [popRev, if_pos qbcex_far]
  · rfl
  · simp

theorem qbcex_contour10 : linearize_contour
    (Contour.mk [ContourPoint.mkOn ⟨0, 0⟩, ContourPoint.mkOff ⟨1 / 125, 0⟩,
      ContourPoint.mkOn ⟨1 / 125, 1 / 125⟩] true) 10 =
    Contour.mk [ContourPoint.mkOn ⟨0, 0⟩, ContourPoint.mkOn ⟨3 / 400, 9 / 2000⟩,
      ContourPoint.mkOn ⟨1 / 125, 1 / 125⟩] true := by
  have hstep : linearize_contour
      (Contour.mk [ContourPoint.mkOn ⟨0, 0⟩, ContourPoint.mkOff ⟨1 / 125, 0⟩,
        ContourPoint.mkOn ⟨1 / 125, 1 / 125⟩] true) 10 =
      Contour.mk (remove_collinear_points
        (([ContourPoint.mkOn ⟨0, 0⟩] ++ ([] ++
          ((List.map ContourPoint.mkOn
              (linearize_qbezier ⟨0, 0⟩ ⟨1 / 125, 0⟩ ⟨1 / 125, 1 / 125⟩ 10) ++
            [ContourPoint.mkOn ⟨1 / 125, 1 / 125⟩]) ++ []))) ++ [])) true := rfl
  rw [hstep, qbcex_lq10]
  have hflat : (([ContourPoint.mkOn (⟨0, 0⟩ : Vec2)] ++ ([] ++
      ((List.map ContourPoint.mkOn
          [(⟨7 / 2000, 1 / 2000⟩ : Vec2), ⟨3 / 500, 1 / 500⟩, ⟨3 / 400, 9 / 2000⟩] ++
        [ContourPoint.mkOn ⟨1 / 125, 1 / 125⟩]) ++ []))) ++ []) =
      [ContourPoint.mkOn ⟨0, 0⟩, ContourPoint.mkOn ⟨7 / 2000, 1 / 2000⟩,
        ContourPoint.mkOn ⟨3 / 500, 1 / 500⟩, ContourPoint.mkOn ⟨3 / 400, 9 / 2000⟩,
        ContourPoint.mkOn ⟨1 / 125, 1 / 125⟩] := by simp
  rw [hflat, qbcex_rc10]

theorem qbcex_contour20 : linearize_contour
    (Contour.mk [ContourPoint.mkOn ⟨0, 0⟩, ContourPoint.mkOff ⟨1 / 125, 0⟩,
      ContourPoint.mkOn ⟨1 / 125, 1 / 125⟩] true) 20 =
    Contour.mk [] true := by
  have hstep : linearize_contour
      (Contour.mk [ContourPoint.mkOn ⟨0, 0⟩, ContourPoint.mkOff ⟨1 / 125, 0⟩,
        ContourPoint.mkOn ⟨1 / 125, 1 / 125⟩] true) 20 =
      Contour.mk (remove_collinear_points
        (([ContourPoint.mkOn ⟨0, 0⟩] ++ ([] ++
          ((List.map ContourPoint.mkOn
              (linearize_qbezier ⟨0, 0⟩ ⟨1 / 125, 0⟩ ⟨1 / 125, 1 / 125⟩ 20) ++
            [ContourPoint.mkOn ⟨1 / 125, 1 / 125⟩]) ++ []))) ++ [])) true := rfl
  rw [hstep, qbcex_lq20]
  have hflat : (([ContourPoint.mkOn (⟨0, 0⟩ : Vec2)] ++ ([] ++
      ((List.map ContourPoint.mkOn
          [(⟨11 / 4500, 1 / 4500⟩ : Vec2), ⟨1 / 225, 1 / 1125⟩, ⟨3 / 500, 1 / 500⟩,
            ⟨8 / 1125, 4 / 1125⟩, ⟨7 / 900, 1 / 180⟩] ++
        [ContourPoint.mkOn ⟨1 / 125, 1 / 125⟩]) ++ []))) ++ []) =
      [ContourPoint.mkOn ⟨0, 0⟩, ContourPoint.mkOn ⟨11 / 4500, 1 / 4500⟩,
        ContourPoint.mkOn ⟨1 / 225, 1 / 1125⟩, ContourPoint.mkOn ⟨3 / 500, 1 / 500⟩,
        ContourPoint.mkOn ⟨8 / 1125, 4 / 1125⟩, ContourPoint.mkOn ⟨7 / 900, 1 / 180⟩,
        ContourPoint.mkOn ⟨1 / 125, 1 / 125⟩] := by simp
  rw [hflat, qbcex_rc20]

/-- **C4 counterexample.** For the small right-angle quadratic contour below
(which contains an off-curve point), linearizing at subdivisions = 20 yields
FEWER vertices (0: all interior points are simplified away and the contour is
discarded) than at subdivisions = 10 (3 vertices survive), refuting the
claimed monotonicity of vertex counts in the subdivision count. -/
theorem subdivision_monotonicity_cex :
    ¬(outlineVertexCount (linearize_outline
        ⟨[⟨[ContourPoint.mkOn ⟨0, 0⟩, ContourPoint.mkOff ⟨1 / 125, 0⟩,
          ContourPoint.mkOn ⟨1 / 125, 1 / 125⟩], true⟩]⟩ 10) ≤
      outlineVertexCount (linearize_outline
        ⟨[⟨[ContourPoint.mkOn ⟨0, 0⟩, ContourPoint.mkOff ⟨1 / 125, 0⟩,
          ContourPoint.mkOn ⟨1 / 125, 1 / 125⟩], true⟩]⟩ 20)) := by
  have h10 : linearize_outline
      ⟨[⟨[ContourPoint.mkOn ⟨0, 0⟩, ContourPoint.mkOff ⟨1 / 125, 0⟩,
        ContourPoint.mkOn ⟨1 / 125, 1 / 125⟩], true⟩]⟩ 10 =
      ⟨[Contour.mk [ContourPoint.mkOn ⟨0, 0⟩, ContourPoint.mkOn ⟨3 / 400, 9 / 2000⟩,
        ContourPoint.mkOn ⟨1 / 125, 1 / 125⟩] true]⟩ := by
    unfold linearize_outline
    simp only [List.map_cons, List.map_nil]
    rw [qbcex_contour10]
    rfl
  have h20 : linearize_outline
      ⟨[⟨[ContourPoint.mkOn ⟨0, 0⟩, ContourPoint.mkOff ⟨1 / 125, 0⟩,
        ContourPoint.mkOn ⟨1 / 125, 1 / 125⟩], true⟩]⟩ 20 = ⟨[]⟩ := by
    unfold linearize_outline
    simp only [List.map_cons, List.map_nil]
    rw [qbcex_contour20]
    rfl
  rw [h10, h20]
  simp [outlineVertexCount]

/-- `glam::Vec3`: a 3D vector of (real-modelled) `f32` components. -/
structure Vec3 where
  x : ℝ
  y : ℝ
  z : ℝ

namespace Vec3

instance : Inhabited Vec3 := ⟨⟨0, 0, 0⟩⟩

instance : Zero Vec3 := ⟨⟨0, 0, 0⟩⟩

/-- Componentwise addition (`impl Add for Vec3`). -/
instance : Add Vec3 := ⟨fun a b => ⟨a.x + b.x, a.y + b.y, a.z + b.z⟩⟩

/-- Componentwise subtraction (`impl Sub for Vec3`). -/
instance : Sub Vec3 := ⟨fun a b => ⟨a.x - b.x, a.y - b.y, a.z - b.z⟩⟩

/-- Scalar multiplication `v * s` (`impl Mul<f32> for Vec3`). -/
def smul (a : Vec3) (s : ℝ) : Vec3 := ⟨a.x * s, a.y * s, a.z * s⟩

@[simp] theorem add3_def (a b : Vec3) : a + b = ⟨a.x + b.x, a.y + b.y, a.z + b.z⟩ := rfl

@[simp] theorem sub3_def (a b : Vec3) : a - b = ⟨a.x - b.x, a.y - b.y, a.z - b.z⟩ := rfl

@[simp] theorem smul3_def (a : Vec3) (s : ℝ) : a.smul s = ⟨a.x * s, a.y * s, a.z * s⟩ := rfl

@[simp] theorem zero_def : (0 : Vec3) = ⟨0, 0, 0⟩ := rfl

instance : AddCommMonoid Vec3 where
  add_assoc a b c := by simp [add3_def]; refine ⟨by ring, by ring, by ring⟩
  zero_add a := by simp
  add_zero a := by simp
  add_comm a b := by simp [add3_def]; refine ⟨by ring, by ring, by ring⟩
  nsmul := nsmulRec

/-- `Vec3::cross`. -/
def cross (a b : Vec3) : Vec3 :=
  ⟨a.y * b.z - a.z * b.y, a.z * b.x - a.x * b.z, a.x * b.y - a.y * b.x⟩

/-- `Vec3::length_squared`. -/
def length_squared (a : Vec3) : ℝ := a.x * a.x + a.y * a.y + a.z * a.z

/-- `Vec3::length`. -/
noncomputable def length (a : Vec3) : ℝ := Real.sqrt a.length_squared

/-- `Vec3::normalize` (`self * self.length().recip()`); on the zero vector
the Rust value is non-finite, modelled here by the real-division junk value
`1/0 = 0`, i.e. the zero vector. -/
noncomputable def normalize (a : Vec3) : Vec3 := a.smul (1 / a.length)

/-- `Vec3::normalize_or_zero`: the normalized vector when the length is
positive, and zero otherwise. -/
noncomputable def normalize_or_zero (a : Vec3) : Vec3 :=
  if 0 < a.length then a.smul (1 / a.length) else 0

theorem length_squared3_nonneg (a : Vec3) : 0 ≤ a.length_squared := by
  unfold length_squared
  nlinarith [sq_nonneg a.x, sq_nonneg a.y, sq_nonneg a.z]

theorem length_nonneg (a : Vec3) : 0 ≤ a.length := Real.sqrt_nonneg _

theorem length3_eval (v : Vec3) (c : ℝ) (hc : 0 ≤ c)
    (h : v.x * v.x + v.y * v.y + v.z * v.z = c * c) : v.length = c := by
  unfold length length_squared
  rw [h]
  exact Real.sqrt_mul_self hc

theorem length_eq_zero_iff (a : Vec3) : a.length = 0 ↔ a.length_squared = 0 := by
  unfold length
  constructor
  · intro h
    have := Real.sqrt_eq_zero (length_squared3_nonneg a) |>.mp h
    exact this
  · intro h
    rw [h, Real.sqrt_zero]

/-- Normalizing a vector of positive length yields a unit vector. -/
theorem length_normalize (a : Vec3) (h : 0 < a.length) : (a.smul (1 / a.length)).length = 1 := by
  have hsq : a.length * a.length = a.length_squared := by
    unfold length
    exact Real.mul_self_sqrt (length_squared3_nonneg a)
  apply length3_eval _ _ (by norm_num)
  simp only [smul3_def]
  have hne : a.length ≠ 0 := ne_of_gt h
  field_simp
  unfold Vec3.length_squared at hsq
  nlinarith [hsq]

theorem normalize_or_zero_length (a : Vec3) :
    (normalize_or_zero a).length = 0 ∨ (normalize_or_zero a).length = 1 := by
  unfold normalize_or_zero
  by_cases h : 0 < a.length
  · rw [if_pos h]
    exact Or.inr (length_normalize a h)
  · rw [if_neg h]
    left
    apply length3_eval _ _ le_rfl
    simp

end Vec3

/-- `Mesh2D` from `types.rs` (`u32` indices modelled as `ℕ`). -/
structure Mesh2D where
  vertices : List Vec2
  indices : List ℕ

/-- `Mesh3D` from `types.rs`. -/
structure Mesh3D where
  vertices : List Vec3
  normals : List Vec3
  indices : List ℕ

/-- Point lookup in a contour's point list (all in-bounds in the source). -/
def pget (pts : List ContourPoint) (i : ℕ) : Vec2 := (pts.getD i default).point

/-- The unit normal of a 2D edge lifted to 3D:
`Vec3::new(-edge_dir.y, edge_dir.x, 0.0)` with
`edge_dir = edge_vec * (1.0 / edge_len_sq.sqrt())`. -/
noncomputable def edgeNormal (edge : Vec2) : Vec3 :=
  ⟨-(edge.smul (1 / Real.sqrt edge.length_squared)).y,
    (edge.smul (1 / Real.sqrt edge.length_squared)).x, 0⟩

/-- Blending of the previous edge's normal with the current one
(`((prev_normal + current_normal) * 0.5).normalize_or_zero()`), falling
back to the current normal when the previous edge is degenerate. -/
noncomputable def blendWithPrev (prev_edge : Vec2) (current_normal : Vec3) : Vec3 :=
  if 1e-10 < prev_edge.length_squared then
    Vec3.normalize_or_zero ((edgeNormal prev_edge + current_normal).smul 0.5)
  else current_normal

/-- Blending of the current edge's normal with the next one. -/
noncomputable def blendWithNext (current_normal : Vec3) (next_edge : Vec2) : Vec3 :=
  if 1e-10 < next_edge.length_squared then
    Vec3.normalize_or_zero ((current_normal + edgeNormal next_edge).smul 0.5)
  else current_normal

/-- `normal_p0` of `create_side_faces`. -/
noncomputable def normalP0 (pts : List ContourPoint) (closed : Bool) (i : ℕ)
    (current_normal : Vec3) : Vec3 :=
  let n := pts.length
  let prev_idx := if i = 0 then (if closed then n - 1 else i) else i - 1
  if closed = true ∨ 0 < i then
    blendWithPrev (pget pts i - pget pts prev_idx) current_normal
  else current_normal

/-- `normal_p1` of `create_side_faces`. -/
noncomputable def normalP1 (pts : List ContourPoint) (closed : Bool) (next : ℕ)
    (current_normal : Vec3) : Vec3 :=
  let n := pts.length
  let next_next := if closed then (next + 1) % n else if next < n - 1 then next + 1 else next
  if closed = true ∨ next < n - 1 then
    blendWithNext current_normal (pget pts next_next - pget pts next)
  else current_normal

/-- The edge loop of `create_side_faces` for one contour: iterate the edge
start indices, skipping degenerate edges, pushing 4 vertices, 4 normals and
6 indices per retained edge; `base` is the running vertex count of the mesh
being extended. -/
noncomputable def sideFold (pts : List ContourPoint) (closed : Bool) (hd : ℝ) :
    List ℕ → ℕ → List Vec3 × List Vec3 × List ℕ
  | [], _ => ([], [], [])
  | i :: rest, base =>
    let n := pts.length
    let next := if closed then (i + 1) % n else i + 1
    let p0 := pget pts i
    let p1 := pget pts next
    let edge_vec := p1 - p0
    if edge_vec.length_squared < 1e-10 then sideFold pts closed hd rest base
    else
      let current_normal := edgeNormal edge_vec
      let n0 := normalP0 pts closed i current_normal
      let n1 := normalP1 pts closed next current_normal
      let r := sideFold pts closed hd rest (base + 4)
      (⟨p0.x, p0.y, hd⟩ :: ⟨p1.x, p1.y, hd⟩ :: ⟨p1.x, p1.y, -hd⟩ :: ⟨p0.x, p0.y, -hd⟩ :: r.1,
        n0 :: n1 :: n1 :: n0 :: r.2.1,
        base :: (base + 1) :: (base + 2) :: base :: (base + 2) :: (base + 3) :: r.2.2)

/-- `create_side_faces` over all contours; contours with fewer than 2 points
are skipped; open contours stop one edge short of the end. -/
noncomputable def sideAll (hd : ℝ) : List Contour → ℕ → List Vec3 × List Vec3 × List ℕ
  | [], _ => ([], [], [])
  | c :: rest, base =>
    if c.points.length < 2 then sideAll hd rest base
    else
      let idxs := if c.closed then List.range c.points.length
        else List.range (c.points.length - 1)
      let r := sideFold c.points c.closed hd idxs base
      let r2 := sideAll hd rest (base + r.1.length)
      (r.1 ++ r2.1, r.2.1 ++ r2.2.1, r.2.2 ++ r2.2.2)

/-- The back-face index emission of `extrude`: for every full chunk of 3,
push `offset + chunk[0]`, `offset + chunk[2]`, `offset + chunk[1]`
(`chunks_exact(3)` ignores a trailing partial chunk). -/
def backIndices (offset : ℕ) : List ℕ → List ℕ
  | a :: b :: c :: rest => (offset + a) :: (offset + c) :: (offset + b) :: backIndices offset rest
  | _ => []

/-- `extrude` from `extrude.rs` (always succeeds; the `Result` wrapper is
omitted). -/
noncomputable def extrude (mesh_2d : Mesh2D) (outline : Outline2D) (depth : ℝ) : Mesh3D :=
  let half_depth := depth / 2
  let front_verts := mesh_2d.vertices.map (fun v => (⟨v.x, v.y, half_depth⟩ : Vec3))
  let front_normals := mesh_2d.vertices.map (fun _ => (⟨0, 0, 1⟩ : Vec3))
  let back_offset := mesh_2d.vertices.length
  let back_verts := mesh_2d.vertices.map (fun v => (⟨v.x, v.y, -half_depth⟩ : Vec3))
  let back_normals := mesh_2d.vertices.map (fun _ => (⟨0, 0, -1⟩ : Vec3))
  let side := sideAll half_depth outline.contours (2 * mesh_2d.vertices.length)
  { vertices := front_verts ++ back_verts ++ side.1,
    normals := front_normals ++ back_normals ++ side.2.1,
    indices := mesh_2d.indices ++ backIndices back_offset mesh_2d.indices ++ side.2.2 }

theorem backIndices_length (off : ℕ) :
    ∀ idx : List ℕ, (backIndices off idx).length = 3 * (idx.length / 3)
  | [] => by simp [backIndices]
  | [a] => by simp [backIndices]
  | [a, b] => by simp [backIndices]
  | a :: b :: c :: rest => by
    simp only [backIndices, List.length_cons]
    rw [backIndices_length off rest]
    omega

theorem backIndices_getElem (off : ℕ) :
    ∀ (t : ℕ) (idx : List ℕ), 3 * t + 2 < idx.length →
      (backIndices off idx)[3 * t]? = (idx[3 * t]?).map (off + ·) ∧
      (backIndices off idx)[3 * t + 1]? = (idx[3 * t + 2]?).map (off + ·) ∧
      (backIndices off idx)[3 * t + 2]? = (idx[3 * t + 1]?).map (off + ·) := by
  intro t
  induction t with
  | zero =>
    intro idx h
    match idx, h with
    | a :: b :: c :: rest, _ =>
      simp [backIndices]
  | succ n ih =>
    intro idx h
    match idx, h with
    | a :: b :: c :: rest, h =>
      have hrest : 3 * n + 2 < rest.length := by
        simp only [List.length_cons] at h
        omega
      obtain ⟨ih1, ih2, ih3⟩ := ih rest hrest
      have e1 : 3 * (n + 1) = 3 * n + 3 := by ring
      refine ⟨?_, ?_, ?_⟩
      · rw [e1]
        simpa [backIndices] using ih1
      · rw [e1]
        simpa [backIndices] using ih2
      · rw [e1]
        simpa [backIndices] using ih3

/-- **C6.** The front cap copies every 2D vertex at `z = +depth/2` with
normal `(0,0,1)` and copies the 2D triangle indices unchanged; the back cap
copies every 2D vertex at `z = -depth/2` with normal `(0,0,-1)` at the fresh
offset `|V|`, with each triangle's last two indices swapped. -/
theorem extrude_caps (m : Mesh2D) (o : Outline2D) (d : ℝ) (i t : ℕ)
    (hi : i < m.vertices.length) (ht : 3 * t + 2 < m.indices.length) :
    (extrude m o d).vertices[i]? = (m.vertices[i]?).map (fun v => (⟨v.x, v.y, d / 2⟩ : Vec3)) ∧
    (extrude m o d).normals[i]? = some ⟨0, 0, 1⟩ ∧
    (extrude m o d).vertices[m.vertices.length + i]? =
      (m.vertices[i]?).map (fun v => (⟨v.x, v.y, -(d / 2)⟩ : Vec3)) ∧
    (extrude m o d).normals[m.vertices.length + i]? = some ⟨0, 0, -1⟩ ∧
    (extrude m o d).indices.take m.indices.length = m.indices ∧
    (extrude m o d).indices[m.indices.length + 3 * t]? =
      (m.indices[3 * t]?).map (m.vertices.length + ·) ∧
    (extrude m o d).indices[m.indices.length + (3 * t + 1)]? =
      (m.indices[3 * t + 2]?).map (m.vertices.length + ·) ∧
    (extrude m o d).indices[m.indices.length + (3 * t + 2)]? =
      (m.indices[3 * t + 1]?).map (m.vertices.length + ·) := by
  have hvl : (m.vertices.map (fun v => (⟨v.x, v.y, d / 2⟩ : Vec3))).length =
      m.vertices.length := List.length_map _ _
  have hnl : (m.vertices.map (fun _ => (⟨0, 0, 1⟩ : Vec3))).length = m.vertices.length :=
    List.length_map _ _
  have hbl : (m.vertices.map (fun v => (⟨v.x, v.y, -(d / 2)⟩ : Vec3))).length =
      m.vertices.length := List.length_map _ _
  have hbnl : (m.vertices.map (fun _ => (⟨0, 0, -1⟩ : Vec3))).length = m.vertices.length :=
    List.length_map _ _
  have hV : (extrude m o d).vertices =
      m.vertices.map (fun v => (⟨v.x, v.y, d / 2⟩ : Vec3)) ++
        (m.vertices.map (fun v => (⟨v.x, v.y, -(d / 2)⟩ : Vec3)) ++
          (sideAll (d / 2) o.contours (2 * m.vertices.length)).1) := by
    rw [show (extrude m o d).vertices =
      (m.vertices.map (fun v => (⟨v.x, v.y, d / 2⟩ : Vec3)) ++
        m.vertices.map (fun v => (⟨v.x, v.y, -(d / 2)⟩ : Vec3))) ++
          (sideAll (d / 2) o.contours (2 * m.vertices.length)).1 from rfl,
      List.append_assoc]
  have hN : (extrude m o d).normals =
      m.vertices.map (fun _ => (⟨0, 0, 1⟩ : Vec3)) ++
        (m.vertices.map (fun _ => (⟨0, 0, -1⟩ : Vec3)) ++
          (sideAll (d / 2) o.contours (2 * m.vertices.length)).2.1) := by
    rw [show (extrude m o d).normals =
      (m.vertices.map (fun _ => (⟨0, 0, 1⟩ : Vec3)) ++
        m.vertices.map (fun _ => (⟨0, 0, -1⟩ : Vec3))) ++
          (sideAll (d / 2) o.contours (2 * m.vertices.length)).2.1 from rfl,
      List.append_assoc]
  have hI : (extrude m o d).indices =
      m.indices ++ (backIndices m.vertices.length m.indices ++
        (sideAll (d / 2) o.contours (2 * m.vertices.length)).2.2) := by
    rw [show (extrude m o d).indices =
      (m.indices ++ backIndices m.vertices.length m.indices) ++
        (sideAll (d / 2) o.contours (2 * m.vertices.length)).2.2 from rfl,
      List.append_assoc]
  have hbidx : ∀ k, k < 3 * (m.indices.length / 3) →
      (extrude m o d).indices[m.indices.length + k]? =
        (backIndices m.vertices.length m.indices)[k]? := by
    intro k hk
    rw [hI, List.getElem?_append_right (by omega), Nat.add_sub_cancel_left,
      List.getElem?_append_left (by rw [backIndices_length]; omega)]
  obtain ⟨hb1, hb2, hb3⟩ := backIndices_getElem m.vertices.length t m.indices ht
  refine ⟨?_, ?_, ?_, ?_, ?_, ?_, ?_, ?_⟩
  · rw [hV, List.getElem?_append_left (by rw [hvl]; exact hi), List.getElem?_map]
  · rw [hN, List.getElem?_append_left (by rw [hnl]; exact hi), List.getElem?_map,
      List.getElem?_eq_getElem hi]
    rfl
  · rw [hV, List.getElem?_append_right (by omega), hvl, Nat.add_sub_cancel_left,
      List.getElem?_append_left (by rw [hbl]; exact hi), List.getElem?_map]
  · rw [hN, List.getElem?_append_right (by omega), hnl, Nat.add_sub_cancel_left,
      List.getElem?_append_left (by rw [hbnl]; exact hi), List.getElem?_map,
      List.getElem?_eq_getElem hi]
    rfl
  · rw [hI, List.take_left]
  · rw [hbidx (3 * t) (by omega)]
    exact hb1
  · rw [hbidx (3 * t + 1) (by omega)]
    exact hb2
  · rw [hbidx (3 * t + 2) (by omega)]
    exact hb3

/-- Witness for the cap theorem on the square mesh of the spec's scenario. -/
theorem extrude_caps_witness :
    (0 < (Mesh2D.mk [⟨0, 0⟩, ⟨1, 0⟩, ⟨1, 1⟩, ⟨0, 1⟩] [0, 1, 2, 0, 2, 3]).vertices.length ∧
      3 * 1 + 2 < (Mesh2D.mk [⟨0, 0⟩, ⟨1, 0⟩, ⟨1, 1⟩, ⟨0, 1⟩] [0, 1, 2, 0, 2, 3]).indices.length) ∧
    (extrude (Mesh2D.mk [⟨0, 0⟩, ⟨1, 0⟩, ⟨1, 1⟩, ⟨0, 1⟩] [0, 1, 2, 0, 2, 3]) ⟨[]⟩ 1).normals[0]? =
      some ⟨0, 0, 1⟩ ∧
    (extrude (Mesh2D.mk [⟨0, 0⟩, ⟨1, 0⟩, ⟨1, 1⟩, ⟨0, 1⟩] [0, 1, 2, 0, 2, 3])
        ⟨[]⟩ 1).normals[(Mesh2D.mk [⟨0, 0⟩, ⟨1, 0⟩, ⟨1, 1⟩, ⟨0, 1⟩]
        [0, 1, 2, 0, 2, 3]).vertices.length + 0]? = some ⟨0, 0, -1⟩ := by
  obtain ⟨-, h2, -, h4, -⟩ := extrude_caps
    (Mesh2D.mk [⟨0, 0⟩, ⟨1, 0⟩, ⟨1, 1⟩, ⟨0, 1⟩] [0, 1, 2, 0, 2, 3]) ⟨[]⟩ 1 0 1
    (by decide) (by decide)
  exact ⟨⟨by decide, by decide⟩, h2, h4⟩

theorem edgeNormal_unit (e : Vec2) (h : 0 < e.length_squared) : (edgeNormal e).length = 1 := by
  have hsq : Real.sqrt e.length_squared * Real.sqrt e.length_squared = e.length_squared :=
    Real.mul_self_sqrt h.le
  have hsp : 0 < Real.sqrt e.length_squared := Real.sqrt_pos.mpr h
  apply Vec3.length3_eval _ 1 (by norm_num)
  simp only [edgeNormal, Vec2.smul_def]
  have hls : e.length_squared = e.x * e.x + e.y * e.y := rfl
  field_simp
  nlinarith [hsq, hls]

theorem blendWithPrev_length (pe : Vec2) (cn : Vec3) (h : cn.length = 1) :
    (blendWithPrev pe cn).length = 1 ∨ (blendWithPrev pe cn).length = 0 := by
  unfold blendWithPrev
  by_cases hc : 1e-10 < pe.length_squared
  · rw [if_pos hc]
    rcases Vec3.normalize_or_zero_length ((edgeNormal pe + cn).smul 0.5) with h0 | h1
    · exact Or.inr h0
    · exact Or.inl h1
  · rw [if_neg hc]
    exact Or.inl h

theorem blendWithNext_length (cn : Vec3) (ne' : Vec2) (h : cn.length = 1) :
    (blendWithNext cn ne').length = 1 ∨ (blendWithNext cn ne').length = 0 := by
  unfold blendWithNext
  by_cases hc : 1e-10 < ne'.length_squared
  · rw [if_pos hc]
    rcases Vec3.normalize_or_zero_length ((cn + edgeNormal ne').smul 0.5) with h0 | h1
    · exact Or.inr h0
    · exact Or.inl h1
  · rw [if_neg hc]
    exact Or.inl h

theorem normalP0_length (pts : List ContourPoint) (closed : Bool) (i : ℕ) (cn : Vec3)
    (h : cn.length = 1) :
    (normalP0 pts closed i cn).length = 1 ∨ (normalP0 pts closed i cn).length = 0 := by
  unfold normalP0
  by_cases hc : closed = true ∨ 0 < i
  · rw [if_pos hc]
    exact blendWithPrev_length _ _ h
  · rw [if_neg hc]
    exact Or.inl h

theorem normalP1_length (pts : List ContourPoint) (closed : Bool) (next : ℕ) (cn : Vec3)
    (h : cn.length = 1) :
    (normalP1 pts closed next cn).length = 1 ∨ (normalP1 pts closed next cn).length = 0 := by
  unfold normalP1
  by_cases hc : closed = true ∨ next < pts.length - 1
  · rw [if_pos hc]
    exact blendWithNext_length _ _ h
  · rw [if_neg hc]
    exact Or.inl h

theorem sideFold_lengths (pts : List ContourPoint) (closed : Bool) (hd : ℝ) :
    ∀ (idxs : List ℕ) (base : ℕ),
      (sideFold pts closed hd idxs base).1.length =
        (sideFold pts closed hd idxs base).2.1.length := by
  intro idxs
  induction idxs with
  | nil => intro base; rfl
  | cons i rest ih =>
    intro base
    rw [sideFold]
    by_cases hc : ((pget pts (if closed then (i + 1) % pts.length else i + 1)) -
        pget pts i).length_squared < 1e-10
    · rw [if_pos hc]
      exact ih base
    · rw [if_neg hc]
      simp only [List.length_cons]
      rw [ih (base + 4)]

theorem sideFold_normals (pts : List ContourPoint) (closed : Bool) (hd : ℝ) :
    ∀ (idxs : List ℕ) (base : ℕ) (q : Vec3),
      q ∈ (sideFold pts closed hd idxs base).2.1 → q.length = 1 ∨ q.length = 0 := by
  intro idxs
  induction idxs with
  | nil => intro base q hq; simp [sideFold] at hq
  | cons i rest ih =>
    intro base q hq
    rw [sideFold] at hq
    by_cases hc : ((pget pts (if closed then (i + 1) % pts.length else i + 1)) -
        pget pts i).length_squared < 1e-10
    · rw [if_pos hc] at hq
      exact ih base q hq
    · rw [if_neg hc] at hq
      have hcn : (edgeNormal ((pget pts (if closed then (i + 1) % pts.length else i + 1)) -
          pget pts i)).length = 1 := by
        apply edgeNormal_unit
        have := Vec2.length_squared_nonneg ((pget pts
          (if closed then (i + 1) % pts.length else i + 1)) - pget pts i)
        by_contra hz
        push_neg at hz
        have hzero : ((pget pts (if closed then (i + 1) % pts.length else i + 1)) -
            pget pts i).length_squared = 0 := le_antisymm hz this
        rw [hzero] at hc
        exact hc (by norm_num)
      simp only [List.mem_cons] at hq
      rcases hq with h | h | h | h | h
      · exact h ▸ normalP0_length _ _ _ _ hcn
      · exact h ▸ normalP1_length _ _ _ _ hcn
      · exact h ▸ normalP1_length _ _ _ _ hcn
      · exact h ▸ normalP0_length _ _ _ _ hcn
      · exact ih (base + 4) q h

theorem sideAll_lengths (hd : ℝ) :
    ∀ (cs : List Contour) (base : ℕ),
      (sideAll hd cs base).1.length = (sideAll hd cs base).2.1.length := by
  intro cs
  induction cs with
  | nil => intro base; rfl
  | cons c rest ih =>
    intro base
    rw [sideAll]
    by_cases hc : c.points.length < 2
    · rw [if_pos hc]
      exact ih base
    · rw [if_neg hc]
      simp only [List.length_append]
      rw [sideFold_lengths, ih]

theorem sideAll_normals (hd : ℝ) :
    ∀ (cs : List Contour) (base : ℕ) (q : Vec3),
      q ∈ (sideAll hd cs base).2.1 → q.length = 1 ∨ q.length = 0 := by
  intro cs
  induction cs with
  | nil => intro base q hq; simp [sideAll] at hq
  | cons c rest ih =>
    intro base q hq
    rw [sideAll] at hq
    by_cases hc : c.points.length < 2
    · rw [if_pos hc] at hq
      exact ih base q hq
    · rw [if_neg hc] at hq
      simp only [List.mem_append] at hq
      rcases hq with h | h
      · exact sideFold_normals _ _ _ _ _ q h
      · exact ih _ q h

/-- **C7 (amended).** For every extruded mesh, the vertex and normal counts
agree, and every normal either has magnitude within 0.01 of 1.0 or is the
zero vector (produced by `normalize_or_zero` when adjacent edge normals
cancel exactly). -/
theorem extrude_normals_invariant (m : Mesh2D) (o : Outline2D) (d : ℝ) :
    (extrude m o d).vertices.length = (extrude m o d).normals.length ∧
    ∀ nv ∈ (extrude m o d).normals, |nv.length - 1| ≤ 1 / 100 ∨ nv.length = 0 := by
  constructor
  · show ((m.vertices.map _ ++ m.vertices.map _) ++
        (sideAll (d / 2) o.contours (2 * m.vertices.length)).1).length =
      ((m.vertices.map _ ++ m.vertices.map _) ++
        (sideAll (d / 2) o.contours (2 * m.vertices.length)).2.1).length
    simp only [List.length_append, List.length_map]
    rw [sideAll_lengths]
  · intro nv hnv
    have hnv' : nv ∈ (m.vertices.map (fun _ => (⟨0, 0, 1⟩ : Vec3)) ++
        m.vertices.map (fun _ => (⟨0, 0, -1⟩ : Vec3))) ++
        (sideAll (d / 2) o.contours (2 * m.vertices.length)).2.1 := hnv
    simp only [List.mem_append, List.mem_map] at hnv'
    rcases hnv' with (⟨-, -, h⟩ | ⟨-, -, h⟩) | h
    · left
      rw [← h, Vec3.length3_eval ⟨0, 0, 1⟩ 1 (by norm_num) (by norm_num)]
      norm_num
    · left
      rw [← h, Vec3.length3_eval ⟨0, 0, -1⟩ 1 (by norm_num) (by norm_num)]
      norm_num
    · rcases sideAll_normals _ _ _ nv h with h1 | h0
      · left
        rw [h1]
        norm_num
      · exact Or.inr h0

/-- Witness for the amended extrusion normal invariant on the square mesh. -/
theorem extrude_normals_invariant_witness :
    (extrude (Mesh2D.mk [⟨0, 0⟩, ⟨1, 0⟩, ⟨1, 1⟩, ⟨0, 1⟩] [0, 1, 2, 0, 2, 3])
        ⟨[]⟩ 1).vertices.length =
      (extrude (Mesh2D.mk [⟨0, 0⟩, ⟨1, 0⟩, ⟨1, 1⟩, ⟨0, 1⟩] [0, 1, 2, 0, 2, 3])
        ⟨[]⟩ 1).normals.length ∧
    ∀ nv ∈ (extrude (Mesh2D.mk [⟨0, 0⟩, ⟨1, 0⟩, ⟨1, 1⟩, ⟨0, 1⟩] [0, 1, 2, 0, 2, 3])
        ⟨[]⟩ 1).normals, |nv.length - 1| ≤ 1 / 100 ∨ nv.length = 0 :=
  extrude_normals_invariant _ _ _

theorem sideFold_cons_keep (pts : List ContourPoint) (closed : Bool) (hd : ℝ) (i : ℕ)
    (rest : List ℕ) (base : ℕ)
    (h : ¬((pget pts (if closed then (i + 1) % pts.length else i + 1) -
      pget pts i).length_squared < 1e-10)) :
    sideFold pts closed hd (i :: rest) base =
      (⟨(pget pts i).x, (pget pts i).y, hd⟩ ::
        ⟨(pget pts (if closed then (i + 1) % pts.length else i + 1)).x,
          (pget pts (if closed then (i + 1) % pts.length else i + 1)).y, hd⟩ ::
        ⟨(pget pts (if closed then (i + 1) % pts.length else i + 1)).x,
          (pget pts (if closed then (i + 1) % pts.length else i + 1)).y, -hd⟩ ::
        ⟨(pget pts i).x, (pget pts i).y, -hd⟩ ::
        (sideFold pts closed hd rest (base + 4)).1,
      normalP0 pts closed i (edgeNormal
          (pget pts (if closed then (i + 1) % pts.length else i + 1) - pget pts i)) ::
        normalP1 pts closed (if closed then (i + 1) % pts.length else i + 1) (edgeNormal
          (pget pts (if closed then (i + 1) % pts.length else i + 1) - pget pts i)) ::
        normalP1 pts closed (if closed then (i + 1) % pts.length else i + 1) (edgeNormal
          (pget pts (if closed then (i + 1) % pts.length else i + 1) - pget pts i)) ::
        normalP0 pts closed i (edgeNormal
          (pget pts (if closed then (i + 1) % pts.length else i + 1) - pget pts i)) ::
        (sideFold pts closed hd rest (base + 4)).2.1,
      base :: (base + 1) :: (base + 2) :: base :: (base + 2) :: (base + 3) ::
        (sideFold pts closed hd rest (base + 4)).2.2) := by
  rw [sideFold, if_neg h]

theorem extrude_zero_normal_cn : edgeNormal
    (pget [ContourPoint.mkOn ⟨0, 0⟩, ContourPoint.mkOn ⟨1, 0⟩] 1 -
      pget [ContourPoint.mkOn ⟨0, 0⟩, ContourPoint.mkOn ⟨1, 0⟩] 0) = ⟨0, 1, 0⟩ := by
  unfold edgeNormal
  rw [show (pget [ContourPoint.mkOn ⟨0, 0⟩, ContourPoint.mkOn ⟨1, 0⟩] 1 -
      pget [ContourPoint.mkOn ⟨0, 0⟩, ContourPoint.mkOn ⟨1, 0⟩] 0).length_squared =
    1 from by
      show ((1:ℝ) - 0) * ((1:ℝ) - 0) + ((0:ℝ) - 0) * ((0:ℝ) - 0) = 1
      norm_num]
  rw [Real.sqrt_one]
  show (⟨-(((0:ℝ) - 0) * (1 / 1)), ((1:ℝ) - 0) * (1 / 1), 0⟩ : Vec3) = ⟨0, 1, 0⟩
  rw [Vec3.mk.injEq]
  norm_num

theorem extrude_zero_normal_prev : edgeNormal
    (pget [ContourPoint.mkOn ⟨0, 0⟩, ContourPoint.mkOn ⟨1, 0⟩] 0 -
      pget [ContourPoint.mkOn ⟨0, 0⟩, ContourPoint.mkOn ⟨1, 0⟩] 1) = ⟨0, -1, 0⟩ := by
  unfold edgeNormal
  rw [show (pget [ContourPoint.mkOn ⟨0, 0⟩, ContourPoint.mkOn ⟨1, 0⟩] 0 -
      pget [ContourPoint.mkOn ⟨0, 0⟩, ContourPoint.mkOn ⟨1, 0⟩] 1).length_squared =
    1 from by
      show ((0:ℝ) - 1) * ((0:ℝ) - 1) + ((0:ℝ) - 0) * ((0:ℝ) - 0) = 1
      norm_num]
  rw [Real.sqrt_one]
  show (⟨-(((0:ℝ) - 0) * (1 / 1)), ((0:ℝ) - 1) * (1 / 1), 0⟩ : Vec3) = ⟨0, -1, 0⟩
  rw [Vec3.mk.injEq]
  norm_num

theorem extrude_zero_normal_n0 : normalP0
    [ContourPoint.mkOn ⟨0, 0⟩, ContourPoint.mkOn ⟨1, 0⟩] true 0
    (edgeNormal (pget [ContourPoint.mkOn ⟨0, 0⟩, ContourPoint.mkOn ⟨1, 0⟩] 1 -
      pget [ContourPoint.mkOn ⟨0, 0⟩, ContourPoint.mkOn ⟨1, 0⟩] 0)) = ⟨0, 0, 0⟩ := by
  rw [extrude_zero_normal_cn]
  unfold normalP0
  rw [if_pos (Or.inl rfl)]
  show blendWithPrev (pget [ContourPoint.mkOn ⟨0, 0⟩, ContourPoint.mkOn ⟨1, 0⟩] 0 -
    pget [ContourPoint.mkOn ⟨0, 0⟩, ContourPoint.mkOn ⟨1, 0⟩] 1) ⟨0, 1, 0⟩ = ⟨0, 0, 0⟩
  unfold blendWithPrev
  rw [if_pos (by
    show (1e-10 : ℝ) < ((0:ℝ) - 1) * ((0:ℝ) - 1) + ((0:ℝ) - 0) * ((0:ℝ) - 0)
    norm_num)]
  rw [extrude_zero_normal_prev]
  have hsum : ((⟨0, -1, 0⟩ : Vec3) + ⟨0, 1, 0⟩).smul 0.5 = ⟨0, 0, 0⟩ := by
    simp only [Vec3.add3_def, Vec3.smul3_def, Vec3.mk.injEq]
    norm_num
  rw [hsum]
  unfold Vec3.normalize_or_zero
  rw [if_neg]
  · rfl
  · rw [Vec3.length3_eval ⟨0, 0, 0⟩ 0 le_rfl (by norm_num)]
    norm_num

/-- **C7 counterexample.** Extruding an empty 2D mesh along the closed
two-point contour `[(0,0), (1,0)]` (which doubles back on itself) pushes
side-wall normals whose adjacent-edge average cancels exactly, so
`normalize_or_zero` yields the zero vector: not every normal of an extruded
mesh has magnitude within 0.01 of 1.0. -/
theorem extrude_normal_magnitude_cex :
    ¬(∀ nv ∈ (extrude (Mesh2D.mk [] [])
        ⟨[Contour.mk [ContourPoint.mkOn ⟨0, 0⟩, ContourPoint.mkOn ⟨1, 0⟩] true]⟩ 1).normals,
      |nv.length - 1| ≤ 1 / 100) := by
  intro hall
  have hedge : ¬((pget [ContourPoint.mkOn ⟨0, 0⟩, ContourPoint.mkOn ⟨1, 0⟩]
      (if true then (0 + 1) % ([ContourPoint.mkOn (⟨0, 0⟩ : Vec2),
        ContourPoint.mkOn ⟨1, 0⟩]).length else 0 + 1) -
      pget [ContourPoint.mkOn ⟨0, 0⟩, ContourPoint.mkOn ⟨1, 0⟩] 0).length_squared < 1e-10) := by
    show ¬(((1:ℝ) - 0) * ((1:ℝ) - 0) + ((0:ℝ) - 0) * ((0:ℝ) - 0) < 1e-10)
    norm_num
  have hmem : (⟨0, 0, 0⟩ : Vec3) ∈ (extrude (Mesh2D.mk [] [])
      ⟨[Contour.mk [ContourPoint.mkOn ⟨0, 0⟩, ContourPoint.mkOn ⟨1, 0⟩] true]⟩ 1).normals := by
    show (⟨0, 0, 0⟩ : Vec3) ∈ (sideAll (1 / 2) [Contour.mk [ContourPoint.mkOn ⟨0, 0⟩,
      ContourPoint.mkOn ⟨1, 0⟩] true] 0).2.1
    show (⟨0, 0, 0⟩ : Vec3) ∈ ((sideFold [ContourPoint.mkOn ⟨0, 0⟩, ContourPoint.mkOn ⟨1, 0⟩]
      true (1 / 2) [0, 1] 0).2.1 ++ [])
    rw [sideFold_cons_keep _ _ _ _ _ _ hedge]
    have h0 : normalP0 [ContourPoint.mkOn ⟨0, 0⟩, ContourPoint.mkOn ⟨1, 0⟩] true 0
        (edgeNormal (pget [ContourPoint.mkOn ⟨0, 0⟩, ContourPoint.mkOn ⟨1, 0⟩]
          (if true then (0 + 1) % ([ContourPoint.mkOn (⟨0, 0⟩ : Vec2),
            ContourPoint.mkOn ⟨1, 0⟩]).length else 0 + 1) -
          pget [ContourPoint.mkOn ⟨0, 0⟩, ContourPoint.mkOn ⟨1, 0⟩] 0)) = ⟨0, 0, 0⟩ :=
      extrude_zero_normal_n0
    rw [h0]
    exact List.mem_append.mpr (Or.inl (List.mem_cons_self _ _))
  have := hall _ hmem
  rw [Vec3.length3_eval ⟨0, 0, 0⟩ 0 le_rfl (by norm_num)] at this
  norm_num at this

noncomputable instance : DecidableEq Vec3 := Classical.decEq _

/-- Rust's `as i32` cast on `f32`: truncation toward zero. -/
noncomputable def rustTruncZ (x : ℝ) : ℤ := if 0 ≤ x then ⌊x⌋ else ⌈x⌉

/-- The quantized-position key of `compute_smooth_normals`:
`(vertex[k] * 10000.0) as i32` per axis. -/
noncomputable def quantKey (v : Vec3) : ℤ × ℤ × ℤ :=
  (rustTruncZ (v.x * 10000), rustTruncZ (v.y * 10000), rustTruncZ (v.z * 10000))

/-- Vertex lookup (all indices in range for well-formed meshes). -/
def vget (m : Mesh3D) (i : ℕ) : Vec3 := m.vertices.getD i default

/-- `edge1.cross(edge2).normalize()` for one triangle. -/
noncomputable def faceNormal (v0 v1 v2 : Vec3) : Vec3 :=
  Vec3.normalize ((v1 - v0).cross (v2 - v0))

/-- The triangle triples of an index list (`chunks(3)`; a partial trailing
chunk would make the source panic on the out-of-bounds access, so only full
chunks are modelled). -/
def triples : List ℕ → List (ℕ × ℕ × ℕ)
  | a :: b :: c :: rest => (a, b, c) :: triples rest
  | _ => []

/-- One accumulation step: the triangle's unnormalized... normalized face
normal is added to each of its three vertices (repeats accumulate). -/
noncomputable def accStep (m : Mesh3D) (acc : ℕ → Vec3) (t : ℕ × ℕ × ℕ) : ℕ → Vec3 :=
  let fn := faceNormal (vget m t.1) (vget m t.2.1) (vget m t.2.2)
  let a1 := Function.update acc t.1 (acc t.1 + fn)
  let a2 := Function.update a1 t.2.1 (a1 t.2.1 + fn)
  Function.update a2 t.2.2 (a2 t.2.2 + fn)

/-- The accumulated normal of every vertex after the face loop of
`compute_smooth_normals`. -/
noncomputable def accAll (m : Mesh3D) : ℕ → Vec3 :=
  (triples m.indices).foldl (accStep m) (fun _ => 0)

/-- The group of vertex indices sharing vertex `i`'s quantized position (the
bucket of the position hash map, in ascending index order — the insertion
order of the source's pass over the vertices). -/
noncomputable def vgroup (m : Mesh3D) (i : ℕ) : List ℕ :=
  (List.range m.vertices.length).filter (fun j => decide (quantKey (vget m j) = quantKey (vget m i)))

/-- `compute_smooth_normals` from `extrude.rs`.  The bucket iteration of the
hash map is modelled per-index: buckets are disjoint, so each output normal
depends only on the group of its own vertex.  Singleton groups keep the old
normal when the accumulated normal is exactly zero (and the final defensive
loop then leaves them untouched as well); larger groups always receive the
normalized sum. -/
noncomputable def compute_smooth_normals (mesh : Mesh3D) : Mesh3D :=
  { mesh with
    normals := (List.range mesh.vertices.length).map (fun i =>
      if (vgroup mesh i).length ≤ 1 then
        (if accAll mesh i ≠ 0 then Vec3.normalize (accAll mesh i)
         else mesh.normals.getD i default)
      else Vec3.normalize (((vgroup mesh i).map (accAll mesh)).sum)) }

/-- The per-triangle contribution of the accumulation loop to vertex `i`. -/
noncomputable def accContrib (m : Mesh3D) (i : ℕ) (t : ℕ × ℕ × ℕ) : Vec3 :=
  (if t.1 = i then faceNormal (vget m t.1) (vget m t.2.1) (vget m t.2.2) else 0) +
    ((if t.2.1 = i then faceNormal (vget m t.1) (vget m t.2.1) (vget m t.2.2) else 0) +
      (if t.2.2 = i then faceNormal (vget m t.1) (vget m t.2.1) (vget m t.2.2) else 0))

theorem accStep_apply (m : Mesh3D) (acc : ℕ → Vec3) (t : ℕ × ℕ × ℕ) (j : ℕ) :
    accStep m acc t j = acc j + accContrib m j t := by
  unfold accStep accContrib
  simp only [Function.update_apply]
  by_cases h3 : j = t.2.2 <;> by_cases h2 : j = t.2.1 <;> by_cases h1 : j = t.1 <;>
    simp_all [eq_comm] <;> try abel
  all_goals simp

theorem foldl_accStep (m : Mesh3D) :
    ∀ (ts : List (ℕ × ℕ × ℕ)) (acc : ℕ → Vec3) (j : ℕ),
      (ts.foldl (accStep m) acc) j = acc j + (ts.map (accContrib m j)).sum := by
  intro ts
  induction ts with
  | nil => intro acc j; simp
  | cons t rest ih =>
    intro acc j
    rw [List.foldl_cons, ih, accStep_apply, List.map_cons, List.sum_cons]
    abel

/-- The accumulated normal is the sum over all triangles of that vertex's
contributions. -/
theorem accAll_eq_sum (m : Mesh3D) (j : ℕ) :
    accAll m j = ((triples m.indices).map (accContrib m j)).sum := by
  unfold accAll
  rw [foldl_accStep]
  simp

/-- Evaluating `normalize` once the length is known to be `c`. -/
theorem Vec3.normalize_eval (v : Vec3) (c : ℝ) (hc : 0 ≤ c)
    (h : v.x * v.x + v.y * v.y + v.z * v.z = c * c) :
    Vec3.normalize v = ⟨v.x * (1 / c), v.y * (1 / c), v.z * (1 / c)⟩ := by
  unfold Vec3.normalize
  rw [Vec3.length3_eval v c hc h]
  rfl

/-- Spec-side quantization key following the specification's words:
`round(coordinate * 10000)` per axis (rounding, not truncation). -/
noncomputable def specRoundKey (v : Vec3) : ℤ × ℤ × ℤ :=
  (round (v.x * 10000), round (v.y * 10000), round (v.z * 10000))

/-- Spec-side per-triangle contribution, following the specification's words:
the UNNORMALIZED face normal `cross(edge1, edge2)` is accumulated into every
vertex the triangle touches. -/
noncomputable def specAccContrib (m : Mesh3D) (i : ℕ) (t : ℕ × ℕ × ℕ) : Vec3 :=
  (if t.1 = i then (vget m t.2.1 - vget m t.1).cross (vget m t.2.2 - vget m t.1) else 0) +
    ((if t.2.1 = i then (vget m t.2.1 - vget m t.1).cross (vget m t.2.2 - vget m t.1) else 0) +
      (if t.2.2 = i then (vget m t.2.1 - vget m t.1).cross (vget m t.2.2 - vget m t.1) else 0))

/-- Spec-side accumulated value of a vertex. -/
noncomputable def specAccAll (m : Mesh3D) (i : ℕ) : Vec3 :=
  ((triples m.indices).map (specAccContrib m i)).sum

/-- Spec-side position group of vertex `i` (round keys). -/
noncomputable def specGroup (m : Mesh3D) (i : ℕ) : List ℕ :=
  (List.range m.vertices.length).filter
    (fun j => decide (specRoundKey (vget m j) = specRoundKey (vget m i)))

/-- The smoothing pass exactly as the specification words it: group by round
keys, sum the group's (unnormalized) accumulated normals, normalize once and
write back to every group member; whenever the group's sum is exactly zero
every member keeps its previous normal, whatever the group's size. -/
noncomputable def smooth_normals_spec (m : Mesh3D) : Mesh3D :=
  { m with
    normals := (List.range m.vertices.length).map (fun i =>
      if ((specGroup m i).map (specAccAll m)).sum = 0 then m.normals.getD i default
      else Vec3.normalize (((specGroup m i).map (specAccAll m)).sum)) }

/-- Vertices with equal quantized keys have equal groups: the bucket of the
position map is well-defined. -/
theorem vgroup_eq_of_mem (m : Mesh3D) (i j : ℕ) (hj : j ∈ vgroup m i) :
    vgroup m j = vgroup m i := by
  unfold vgroup at hj ⊢
  have hkey : quantKey (vget m j) = quantKey (vget m i) := by
    have := (List.mem_filter.mp hj).2
    exact of_decide_eq_true this
  apply List.filter_congr
  intro k _
  rw [hkey]

/-- C5 (corrected): `compute_smooth_normals` groups vertices by the
TRUNCATION-toward-zero key `(coord * 10000) as i32` per axis (not rounding);
the accumulated per-vertex value is the sum of the NORMALIZED face normals
`cross(edge1, edge2).normalize()` of every triangle touching the vertex (not
the unnormalized crosses); for a group of two or more vertices the
accumulated values are summed and normalized once and that normal is written
to every member of the group unconditionally (a zero sum yields the
zero-length junk normalization, not the preserved previous normal); only a
singleton group keeps its previous normal, and only when its accumulated
value is exactly zero; vertices and indices are unchanged and a vertex's
quantization bucket is well-defined. -/
theorem smooth_normals_characterization (m : Mesh3D) (i : ℕ)
    (h : i < m.vertices.length) :
    (compute_smooth_normals m).vertices = m.vertices ∧
    (compute_smooth_normals m).indices = m.indices ∧
    (compute_smooth_normals m).normals.length = m.vertices.length ∧
    (∀ j ∈ vgroup m i, vgroup m j = vgroup m i) ∧
    (compute_smooth_normals m).normals[i]? =
      some (if (vgroup m i).length ≤ 1 then
              (if ((triples m.indices).map (accContrib m i)).sum ≠ 0 then
                Vec3.normalize (((triples m.indices).map (accContrib m i)).sum)
               else m.normals.getD i default)
            else Vec3.normalize (((vgroup m i).map
              (fun j => ((triples m.indices).map (accContrib m j)).sum)).sum)) := by
  have hacc : accAll m = fun j => ((triples m.indices).map (accContrib m j)).sum :=
    funext (accAll_eq_sum m)
  refine ⟨rfl, rfl, by simp [compute_smooth_normals], vgroup_eq_of_mem m i, ?_⟩
  show ((List.range m.vertices.length).map _)[i]? = _
  rw [List.getElem?_map, List.getElem?_range h]
  rw [hacc]
  rfl

/-- Witness: the characterization applied to a concrete one-vertex mesh. -/
theorem smooth_normals_characterization_witness :
    (compute_smooth_normals (Mesh3D.mk [⟨0, 0, 0⟩] [⟨0, 0, 1⟩] [])).normals[0]? =
      some (if (vgroup (Mesh3D.mk [⟨0, 0, 0⟩] [⟨0, 0, 1⟩] []) 0).length ≤ 1 then
              (if ((triples (Mesh3D.mk [⟨0, 0, 0⟩] [⟨0, 0, 1⟩] []).indices).map
                    (accContrib (Mesh3D.mk [⟨0, 0, 0⟩] [⟨0, 0, 1⟩] []) 0)).sum ≠ 0 then
                Vec3.normalize (((triples (Mesh3D.mk [⟨0, 0, 0⟩] [⟨0, 0, 1⟩] []).indices).map
                  (accContrib (Mesh3D.mk [⟨0, 0, 0⟩] [⟨0, 0, 1⟩] []) 0)).sum)
               else (Mesh3D.mk [⟨0, 0, 0⟩] [⟨0, 0, 1⟩] []).normals.getD 0 default)
            else Vec3.normalize (((vgroup (Mesh3D.mk [⟨0, 0, 0⟩] [⟨0, 0, 1⟩] []) 0).map
              (fun j => ((triples (Mesh3D.mk [⟨0, 0, 0⟩] [⟨0, 0, 1⟩] []).indices).map
                (accContrib (Mesh3D.mk [⟨0, 0, 0⟩] [⟨0, 0, 1⟩] []) j)).sum)).sum)) :=
  (smooth_normals_characterization (Mesh3D.mk [⟨0, 0, 0⟩] [⟨0, 0, 1⟩] []) 0
    (by simp)).2.2.2.2

/-- A six-vertex, two-triangle mesh separating truncation keys from round
keys: vertex 0 sits at x = 0.00006 (key coordinate 0.6: truncates to 0,
rounds to 1) and vertex 3 at x = 0.00004 (key coordinate 0.4: truncates to 0,
rounds to 0), so truncation groups them together while rounding keeps them
apart. -/
noncomputable def cexMesh5 : Mesh3D :=
  Mesh3D.mk
    [⟨3 / 50000, 0, 0⟩, ⟨1, 0, 0⟩, ⟨0, 1, 0⟩, ⟨1 / 25000, 0, 0⟩, ⟨2, 0, 0⟩, ⟨0, 0, 1⟩]
    [⟨0, 0, 0⟩, ⟨0, 0, 0⟩, ⟨0, 0, 0⟩, ⟨0, 0, 0⟩, ⟨0, 0, 0⟩, ⟨0, 0, 0⟩]
    [0, 1, 2, 3, 4, 5]

/-- Truncation toward zero evaluated from floor bounds (nonnegative case). -/
theorem rustTruncZ_eval (x : ℝ) (n : ℤ) (h0 : 0 ≤ x) (h1 : (n : ℝ) ≤ x)
    (h2 : x < n + 1) : rustTruncZ x = n := by
  unfold rustTruncZ
  rw [if_pos h0]
  exact Int.floor_eq_iff.mpr ⟨h1, h2⟩

/-- C5 counterexample: the code quantizes with `as i32` (truncation toward
zero), not `round(coord * 10000)`.  On `cexMesh5` truncation groups vertices
0 and 3 (key coordinates 0.6 and 0.4 both truncate to 0), so the code blends
their accumulated normals (0,0,1) and (0,-1,0) into `normalize (0,-1,1)`;
rounding separates them (keys 1 and 0), so the specification's words give
vertex 0 the unblended normal (0,0,1).  The two outputs differ at vertex 0. -/
theorem smooth_normals_round_key_cex :
    (compute_smooth_normals cexMesh5).normals[0]? ≠
      (smooth_normals_spec cexMesh5).normals[0]? := by
  have hv0 : vget cexMesh5 0 = ⟨3 / 50000, 0, 0⟩ := rfl
  have hv1 : vget cexMesh5 1 = ⟨1, 0, 0⟩ := rfl
  have hv2 : vget cexMesh5 2 = ⟨0, 1, 0⟩ := rfl
  have hv3 : vget cexMesh5 3 = ⟨1 / 25000, 0, 0⟩ := rfl
  have hv4 : vget cexMesh5 4 = ⟨2, 0, 0⟩ := rfl
  have hv5 : vget cexMesh5 5 = ⟨0, 0, 1⟩ := rfl
  have hk0 : quantKey (vget cexMesh5 0) = ((0 : ℤ), 0, 0) := by
    rw [hv0]; norm_num [quantKey, rustTruncZ]
  have hk1 : quantKey (vget cexMesh5 1) = ((10000 : ℤ), 0, 0) := by
    rw [hv1]; norm_num [quantKey, rustTruncZ]
  have hk2 : quantKey (vget cexMesh5 2) = ((0 : ℤ), 10000, 0) := by
    rw [hv2]; norm_num [quantKey, rustTruncZ]
  have hk3 : quantKey (vget cexMesh5 3) = ((0 : ℤ), 0, 0) := by
    rw [hv3]; norm_num [quantKey, rustTruncZ]
  have hk4 : quantKey (vget cexMesh5 4) = ((20000 : ℤ), 0, 0) := by
    rw [hv4]; norm_num [quantKey, rustTruncZ]
  have hk5 : quantKey (vget cexMesh5 5) = ((0 : ℤ), 0, 10000) := by
    rw [hv5]; norm_num [quantKey, rustTruncZ]
  have hg : vgroup cexMesh5 0 = [0, 3] := by
    unfold vgroup
    rw [show cexMesh5.vertices.length = 6 from rfl,
        show List.range 6 = [0, 1, 2, 3, 4, 5] from rfl]
    simp [List.filter_cons, hk0, hk1, hk2, hk3, hk4, hk5]
  have hcr1 : (vget cexMesh5 1 - vget cexMesh5 0).cross (vget cexMesh5 2 - vget cexMesh5 0) =
      (⟨0, 0, 49997 / 50000⟩ : Vec3) := by
    rw [hv1, hv0, hv2]
    simp only [Vec3.sub3_def, Vec3.cross, Vec3.mk.injEq]
    norm_num
  have hcr2 : (vget cexMesh5 4 - vget cexMesh5 3).cross (vget cexMesh5 5 - vget cexMesh5 3) =
      (⟨0, -(49999 / 25000), 0⟩ : Vec3) := by
    rw [hv4, hv3, hv5]
    simp only [Vec3.sub3_def, Vec3.cross, Vec3.mk.injEq]
    norm_num
  have hfn1 : faceNormal (vget cexMesh5 0) (vget cexMesh5 1) (vget cexMesh5 2) =
      ⟨0, 0, 1⟩ := by
    unfold faceNormal
    rw [hcr1, Vec3.normalize_eval _ (49997 / 50000) (by norm_num) (by norm_num)]
    simp only [Vec3.mk.injEq]
    norm_num
  have hfn2 : faceNormal (vget cexMesh5 3) (vget cexMesh5 4) (vget cexMesh5 5) =
      ⟨0, -1, 0⟩ := by
    unfold faceNormal
    rw [hcr2, Vec3.normalize_eval _ (49999 / 25000) (by norm_num) (by norm_num)]
    simp only [Vec3.mk.injEq]
    norm_num
  have htr : triples cexMesh5.indices = [(0, 1, 2), (3, 4, 5)] := rfl
  have ha0 : accAll cexMesh5 0 = ⟨0, 0, 1⟩ := by
    rw [accAll_eq_sum, htr]
    simp only [List.map_cons, List.map_nil, List.sum_cons, List.sum_nil]
    unfold accContrib
    simp [hfn1]
  have ha3 : accAll cexMesh5 3 = ⟨0, -1, 0⟩ := by
    rw [accAll_eq_sum, htr]
    simp only [List.map_cons, List.map_nil, List.sum_cons, List.sum_nil]
    unfold accContrib
    simp [hfn2]
  have hcode : (compute_smooth_normals cexMesh5).normals[0]? =
      some (Vec3.normalize ⟨0, -1, 1⟩) := by
    simp only [compute_smooth_normals]
    rw [show cexMesh5.vertices.length = 6 from rfl, List.getElem?_map,
        List.getElem?_range (by norm_num)]
    simp only [Option.map_some']
    congr 1
    rw [hg, if_neg (by decide)]
    simp only [List.map_cons, List.map_nil, List.sum_cons, List.sum_nil, ha0, ha3]
    congr 1
    simp only [Vec3.add3_def, Vec3.zero_def, Vec3.mk.injEq]
    norm_num
  have hr0 : specRoundKey (vget cexMesh5 0) = ((1 : ℤ), 0, 0) := by
    rw [hv0]; norm_num [specRoundKey, round_eq]
  have hr1 : specRoundKey (vget cexMesh5 1) = ((10000 : ℤ), 0, 0) := by
    rw [hv1]; norm_num [specRoundKey, round_eq]
  have hr2 : specRoundKey (vget cexMesh5 2) = ((0 : ℤ), 10000, 0) := by
    rw [hv2]; norm_num [specRoundKey, round_eq]
  have hr3 : specRoundKey (vget cexMesh5 3) = ((0 : ℤ), 0, 0) := by
    rw [hv3]; norm_num [specRoundKey, round_eq]
  have hr4 : specRoundKey (vget cexMesh5 4) = ((20000 : ℤ), 0, 0) := by
    rw [hv4]; norm_num [specRoundKey, round_eq]
  have hr5 : specRoundKey (vget cexMesh5 5) = ((0 : ℤ), 0, 10000) := by
    rw [hv5]; norm_num [specRoundKey, round_eq]
  have hsg : specGroup cexMesh5 0 = [0] := by
    unfold specGroup
    rw [show cexMesh5.vertices.length = 6 from rfl,
        show List.range 6 = [0, 1, 2, 3, 4, 5] from rfl]
    simp [List.filter_cons, hr0, hr1, hr2, hr3, hr4, hr5]
    decide
  have hsa0 : specAccAll cexMesh5 0 = ⟨0, 0, 49997 / 50000⟩ := by
    unfold specAccAll
    rw [htr]
    simp only [List.map_cons, List.map_nil, List.sum_cons, List.sum_nil]
    unfold specAccContrib
    simp [hv0, hv1, hv2, Vec3.cross, Vec3.mk.injEq]
    norm_num
  have hspec : (smooth_normals_spec cexMesh5).normals[0]? =
      some (Vec3.normalize ⟨0, 0, 49997 / 50000⟩) := by
    simp only [smooth_normals_spec]
    rw [show cexMesh5.vertices.length = 6 from rfl, List.getElem?_map,
        List.getElem?_range (by norm_num)]
    simp only [Option.map_some']
    congr 1
    rw [hsg]
    simp only [List.map_cons, List.map_nil, List.sum_cons, List.sum_nil, add_zero, hsa0]
    rw [if_neg (by simp only [Vec3.zero_def, Vec3.mk.injEq]; norm_num)]
  have h2 : (0 : ℝ) < Real.sqrt 2 := Real.sqrt_pos.mpr (by norm_num)
  rw [hcode, hspec,
      Vec3.normalize_eval ⟨0, -1, 1⟩ (Real.sqrt 2) (Real.sqrt_nonneg 2) (by
        rw [Real.mul_self_sqrt (by norm_num : (0 : ℝ) ≤ 2)]; norm_num),
      Vec3.normalize_eval ⟨0, 0, 49997 / 50000⟩ (49997 / 50000) (by norm_num) (by norm_num)]
  intro hcontra
  simp only [Option.some.injEq, Vec3.mk.injEq] at hcontra
  have hy : (1 : ℝ) / Real.sqrt 2 = 0 := by linarith [hcontra.2.1]
  rw [one_div, inv_eq_zero] at hy
  exact absurd hy (ne_of_gt h2)

/-- `FontMeshError` from `error.rs`. -/
inductive FontMeshError where
  | ParseError (msg : String)
  | GlyphNotFound (c : Char)
  | OutlineExtractionFailed (msg : String)
  | LinearizationFailed (msg : String)
  | TriangulationFailed (msg : String)
  | ExtrusionFailed (msg : String)
  | InvalidQuality (q : ℕ)
  | NoOutline
deriving DecidableEq

/-- The outline callbacks of `ttf_parser::OutlineBuilder`, in the order the
external crate issues them while walking a glyph. -/
inductive DrawCmd where
  | moveTo (x y : ℝ)
  | lineTo (x y : ℝ)
  | quadTo (x1 y1 x y : ℝ)
  | curveTo (x1 y1 x2 y2 x y : ℝ)
  | close

/-- The part of `ttf_parser::Face` this library reads.  Modelled from the
spec: `glyph_index` finds a character's glyph id, `outline_glyph` replays a
found glyph's outline commands into the builder and reports `none` when the
glyph has no outline data, and `units_per_em` scales font units. -/
structure FaceModel where
  glyphIndex : Char → Option ℕ
  glyphCommands : ℕ → Option (List DrawCmd)
  unitsPerEm : ℕ

/-- The builder state of `OutlineExtractor` (`glyph.rs`). -/
structure ExtractorState where
  outline : List Contour
  current_contour : Option Contour
  scale : ℝ
  last_point : Option Vec2

/-- `OutlineExtractor::new`: empty outline, no current contour, scale
`1.0 / units_per_em`. -/
noncomputable def ExtractorState.init (upm : ℕ) : ExtractorState :=
  ⟨[], none, 1 / (upm : ℝ), none⟩

/-- `OutlineExtractor::point`: scale raw font units. -/
noncomputable def exPoint (s : ExtractorState) (x y : ℝ) : Vec2 :=
  ⟨x * s.scale, y * s.scale⟩

/-- `OutlineExtractor::push_point`: append to the current contour if one is
open, else drop the point. -/
def push_point (s : ExtractorState) (p : ContourPoint) : ExtractorState :=
  match s.current_contour with
  | some c => { s with current_contour := some ⟨c.points ++ [p], c.closed⟩,
                       last_point := some p.point }
  | none => s

/-- `OutlineExtractor::finish_contour`: take the current contour, add it to
the outline when non-empty, clear `last_point`. -/
def finish_contour (s : ExtractorState) : ExtractorState :=
  match s.current_contour with
  | some c =>
      { s with outline := if c.points.isEmpty then s.outline else s.outline ++ [c],
               current_contour := none, last_point := none }
  | none => { s with last_point := none }

/-- One `OutlineBuilder` callback of `OutlineExtractor`: `move_to` finishes
the pending contour and opens a new `Contour::new(true)` with the on-curve
start point; `line_to` pushes an on-curve point; `quad_to` pushes
off-curve control + on-curve end; `curve_to` pushes two off-curve controls +
on-curve end; `close` finishes the contour. -/
noncomputable def exStep (s : ExtractorState) : DrawCmd → ExtractorState
  | .moveTo x y =>
      let s1 := finish_contour s
      let pt := exPoint s1 x y
      { s1 with current_contour := some ⟨[ContourPoint.mkOn pt], true⟩,
                last_point := some pt }
  | .lineTo x y => push_point s (ContourPoint.mkOn (exPoint s x y))
  | .quadTo x1 y1 x y =>
      push_point (push_point s (ContourPoint.mkOff (exPoint s x1 y1)))
        (ContourPoint.mkOn (exPoint s x y))
  | .curveTo x1 y1 x2 y2 x y =>
      push_point (push_point (push_point s (ContourPoint.mkOff (exPoint s x1 y1)))
          (ContourPoint.mkOff (exPoint s x2 y2)))
        (ContourPoint.mkOn (exPoint s x y))
  | .close => finish_contour s

/-- Running the extractor over a glyph's command stream. -/
noncomputable def runExtractor (upm : ℕ) (cmds : List DrawCmd) : ExtractorState :=
  cmds.foldl exStep (ExtractorState.init upm)

/-- `Face::outline_glyph` with our extractor: `none` when the glyph has no
outline data, otherwise the contours the builder assembled. -/
noncomputable def outline_glyph (f : FaceModel) (gid : ℕ) : Option Outline2D :=
  (f.glyphCommands gid).map (fun cmds => ⟨(runExtractor f.unitsPerEm cmds).outline⟩)

/-- `extract_and_linearize_outline` from `glyph.rs`: missing glyph id gives
`GlyphNotFound`, missing outline data or an empty extracted outline gives
`NoOutline`, otherwise the linearized outline (`linearize_outline` always
succeeds). -/
noncomputable def extract_and_linearize_outline (f : FaceModel) (c : Char)
    (subdivisions : ℕ) : Except FontMeshError Outline2D :=
  match f.glyphIndex c with
  | none => .error (.GlyphNotFound c)
  | some gid =>
    match outline_glyph f gid with
    | none => .error .NoOutline
    | some o =>
      if o.contours.isEmpty then .error .NoOutline
      else .ok (linearize_outline o subdivisions)

/-- `triangulate` from `triangulate.rs`.  The lyon tessellator is external
code, modelled by the parameter `tess` (its error text is wrapped in
`TriangulationFailed`); the function's own contribution is the empty-outline
check. -/
def triangulate (tess : Outline2D → Except String Mesh2D) (o : Outline2D) :
    Except FontMeshError Mesh2D :=
  if o.contours.isEmpty then .error (.TriangulationFailed "Empty outline")
  else
    match tess o with
    | .error e => .error (.TriangulationFailed e)
    | .ok m => .ok m

/-- `char_to_mesh_2d` from `glyph.rs`. -/
noncomputable def char_to_mesh_2d (tess : Outline2D → Except String Mesh2D)
    (f : FaceModel) (c : Char) (subdivisions : ℕ) : Except FontMeshError Mesh2D :=
  match extract_and_linearize_outline f c subdivisions with
  | .error e => .error e
  | .ok o => triangulate tess o

/-- `Font::glyph_to_mesh_2d_reuse` from `font.rs`, returning the `Result`
together with the final state of the caller's mesh buffer (cleared at entry;
`quality` is the `Quality::value()` subdivision count).  `Glyph::outline`'s
`NoOutline` error is deliberately mapped to `Ok(())` with the mesh left
cleared. -/
noncomputable def glyph_to_mesh_2d_reuse (tess : Outline2D → Except String Mesh2D)
    (f : FaceModel) (c : Char) (quality : ℕ) :
    Except FontMeshError Unit × Mesh2D :=
  match f.glyphIndex c with
  | none => (.error (.GlyphNotFound c), Mesh2D.mk [] [])
  | some gid =>
    match outline_glyph f gid with
    | none => (.ok (), Mesh2D.mk [] [])
    | some o =>
      if o.contours.isEmpty then (.ok (), Mesh2D.mk [] [])
      else
        match triangulate tess (linearize_outline o quality) with
        | .error e => (.error e, Mesh2D.mk [] [])
        | .ok m => (.ok (), m)

/-- The closedness invariant of the extractor: every emitted contour and any
open current contour carries `closed = true`. -/
def closedInv (s : ExtractorState) : Bool :=
  s.outline.all (fun c => c.closed) && s.current_contour.all (fun c => c.closed)

theorem finish_contour_closedInv (s : ExtractorState) (h : closedInv s = true) :
    closedInv (finish_contour s) = true := by
  unfold closedInv finish_contour at *
  cases hc : s.current_contour with
  | none => simp_all
  | some c =>
    by_cases he : c.points.isEmpty <;> simp_all [List.all_append]

theorem push_point_closedInv (s : ExtractorState) (p : ContourPoint)
    (h : closedInv s = true) : closedInv (push_point s p) = true := by
  unfold closedInv push_point at *
  cases hc : s.current_contour <;> simp_all

theorem exStep_closedInv (s : ExtractorState) (cmd : DrawCmd)
    (h : closedInv s = true) : closedInv (exStep s cmd) = true := by
  cases cmd with
  | moveTo x y =>
    have h1 := finish_contour_closedInv s h
    unfold closedInv at h1 ⊢
    simp only [exStep]
    simp_all
  | lineTo x y => exact push_point_closedInv _ _ h
  | quadTo x1 y1 x y => exact push_point_closedInv _ _ (push_point_closedInv _ _ h)
  | curveTo x1 y1 x2 y2 x y =>
    exact push_point_closedInv _ _ (push_point_closedInv _ _ (push_point_closedInv _ _ h))
  | close => exact finish_contour_closedInv s h

theorem foldl_closedInv (cmds : List DrawCmd) :
    ∀ s : ExtractorState, closedInv s = true → closedInv (cmds.foldl exStep s) = true := by
  induction cmds with
  | nil => intro s h; exact h
  | cons cmd rest ih => intro s h; exact ih _ (exStep_closedInv s cmd h)

/-- C10: every contour the outline extractor assembles is marked closed from
the moment `move_to` starts it (`Contour::new(true)`), whether or not a
`close()` callback ever arrives: after any command stream, all emitted
contours and any still-open contour have `closed = true`. -/
theorem extractor_contours_closed (upm : ℕ) (cmds : List DrawCmd) :
    (runExtractor upm cmds).outline.all (fun c => c.closed) = true ∧
    (runExtractor upm cmds).current_contour.all (fun c => c.closed) = true := by
  have h : closedInv (runExtractor upm cmds) = true :=
    foldl_closedInv cmds (ExtractorState.init upm)
      (by simp [closedInv, ExtractorState.init])
  unfold closedInv at h
  exact ⟨(Bool.and_eq_true _ _ |>.mp h).1, (Bool.and_eq_true _ _ |>.mp h).2⟩

/-- C9 (corrected): when the glyph lookup succeeds but the extracted outline
has zero contours, `extract_and_linearize_outline` (hence `char_to_mesh_2d`)
returns the `NoOutline` error, which is distinct from `GlyphNotFound`; but
`Font::glyph_to_mesh_2d_reuse` deliberately converts that `NoOutline` into
`Ok(())` with the caller's mesh left cleared — an empty-but-valid mesh, not
an error. -/
theorem empty_outline_error (tess : Outline2D → Except String Mesh2D)
    (f : FaceModel) (c : Char) (s q gid : ℕ) (o : Outline2D)
    (hidx : f.glyphIndex c = some gid)
    (hout : outline_glyph f gid = some o)
    (hoc : o.contours = []) :
    extract_and_linearize_outline f c s = .error .NoOutline ∧
    char_to_mesh_2d tess f c s = .error .NoOutline ∧
    FontMeshError.NoOutline ≠ FontMeshError.GlyphNotFound c ∧
    glyph_to_mesh_2d_reuse tess f c q = (.ok (), Mesh2D.mk [] []) := by
  have hx : extract_and_linearize_outline f c s = .error .NoOutline := by
    unfold extract_and_linearize_outline
    simp [hidx, hout, hoc]
  refine ⟨hx, ?_, by simp, ?_⟩
  · unfold char_to_mesh_2d
    rw [hx]
  · unfold glyph_to_mesh_2d_reuse
    simp [hidx, hout, hoc]

/-- A face whose only glyph exists but carries no outline commands, as a
whitespace glyph does. -/
def whitespaceFace : FaceModel :=
  FaceModel.mk (fun _ => some 0) (fun _ => some []) 1000

/-- Witness: the empty-outline behaviour at a concrete whitespace-like
face. -/
theorem empty_outline_error_witness :
    extract_and_linearize_outline whitespaceFace 'a' 20 = .error .NoOutline ∧
    char_to_mesh_2d (fun _ => .ok (Mesh2D.mk [] [])) whitespaceFace 'a' 20 =
      .error .NoOutline ∧
    FontMeshError.NoOutline ≠ FontMeshError.GlyphNotFound 'a' ∧
    glyph_to_mesh_2d_reuse (fun _ => .ok (Mesh2D.mk [] [])) whitespaceFace 'a' 20 =
      (.ok (), Mesh2D.mk [] []) :=
  empty_outline_error (fun _ => .ok (Mesh2D.mk [] [])) whitespaceFace 'a' 20 20 0
    ⟨[]⟩ rfl rfl rfl

/-- C9 counterexample: on a concrete face whose glyph is found but has an
empty outline, the reuse API reports success with an empty mesh instead of
the claimed `NoOutline` error. -/
theorem reuse_whitespace_ok_cex :
    (glyph_to_mesh_2d_reuse (fun _ => .ok (Mesh2D.mk [] [])) whitespaceFace 'a' 20).1 =
      .ok () ∧
    (glyph_to_mesh_2d_reuse (fun _ => .ok (Mesh2D.mk [] [])) whitespaceFace 'a' 20).1 ≠
      .error .NoOutline := by
  constructor
  · rfl
  · intro h
    rw [show (glyph_to_mesh_2d_reuse (fun _ => .ok (Mesh2D.mk [] []))
        whitespaceFace 'a' 20).1 = .ok () from rfl] at h
    exact Except.noConfusion h

end Fontmesh
